import Mathlib

/-!
Verification of the Brazilian census / election-results pre-processing
pipeline (`src/census/interim.py`, `src/census/processed.py`).

The pipeline manipulates pandas dataframes.  We embed a dataframe as a
list of column names together with a list of rows, a row being a function
from column names to cell values.  Cell values are embedded by `PVal`:
a missing value (`na`, pandas `NaN`), positive or negative infinity
(produced by float division by zero), a rational number, or a string.
The arithmetic on `PVal` mirrors the IEEE behaviour of numpy/pandas for
the operations the source code performs: division by zero yields a signed
infinity for a nonzero numerator and `NaN` for a zero numerator, and `NaN`
propagates through every operation.
-/

namespace Census

/-- A pandas cell value: missing (`NaN`), `+inf`, `-inf`, a (rational)
number, or a string. -/
inductive PVal where
  | na
  | pinf
  | ninf
  | num (q : ℚ)
  | str (s : String)
deriving DecidableEq, Repr

/-- Addition as performed by numpy/pandas on float cells (string operands
never occur on the arithmetic paths of the source; they fall into the
catch-all `na` case). -/
def padd : PVal → PVal → PVal
  | .num a, .num b => .num (a + b)
  | .num _, .pinf => .pinf
  | .num _, .ninf => .ninf
  | .pinf, .num _ => .pinf
  | .ninf, .num _ => .ninf
  | .pinf, .pinf => .pinf
  | .ninf, .ninf => .ninf
  | .pinf, .ninf => .na
  | .ninf, .pinf => .na
  | _, _ => .na

/-- Subtraction on float cells. -/
def psub : PVal → PVal → PVal
  | .num a, .num b => .num (a - b)
  | .num _, .pinf => .ninf
  | .num _, .ninf => .pinf
  | .pinf, .num _ => .pinf
  | .ninf, .num _ => .ninf
  | .pinf, .ninf => .pinf
  | .ninf, .pinf => .ninf
  | _, _ => .na

/-- Multiplication on float cells. -/
def pmul : PVal → PVal → PVal
  | .num a, .num b => .num (a * b)
  | .num a, .pinf => if 0 < a then .pinf else if a < 0 then .ninf else .na
  | .num a, .ninf => if 0 < a then .ninf else if a < 0 then .pinf else .na
  | .pinf, .num b => if 0 < b then .pinf else if b < 0 then .ninf else .na
  | .ninf, .num b => if 0 < b then .ninf else if b < 0 then .pinf else .na
  | .pinf, .pinf => .pinf
  | .pinf, .ninf => .ninf
  | .ninf, .pinf => .ninf
  | .ninf, .ninf => .pinf
  | _, _ => .na

/-- Division on float cells: IEEE semantics, in particular `x / 0` is a
signed infinity for `x ≠ 0` and `NaN` for `x = 0`, and `NaN` propagates. -/
def pdiv : PVal → PVal → PVal
  | .num a, .num b =>
      if b = 0 then (if 0 < a then .pinf else if a < 0 then .ninf else .na)
      else .num (a / b)
  | .num _, .pinf => .num 0
  | .num _, .ninf => .num 0
  | .pinf, .num b => if b < 0 then .ninf else .pinf
  | .ninf, .num b => if b < 0 then .pinf else .ninf
  | _, _ => .na

/-- True for a number or a missing value (a finite float cell). -/
def finOrNa : PVal → Bool
  | .na => true
  | .num _ => true
  | _ => false

/-- True for a string cell. -/
def isStr : PVal → Bool
  | .str _ => true
  | _ => false

/-- The rational contribution of a cell to a `NaN`-skipping sum. -/
def contrib : PVal → ℚ
  | .num q => q
  | _ => 0

/-- Character-list test: `t` is a prefix of the second list. -/
def prefixOfChars : List Char → List Char → Bool
  | [], _ => true
  | _ :: _, [] => false
  | a :: as, b :: bs => a == b && prefixOfChars as bs

/-- Character-list test: `t` occurs contiguously inside the second list. -/
def substrChars (t : List Char) : List Char → Bool
  | [] => t.isEmpty
  | c :: cs => prefixOfChars t (c :: cs) || substrChars t cs

/-- `containsTag tag s` embeds Python's `tag in s` substring test on
column names. -/
def containsTag (tag s : String) : Bool := substrChars tag.data s.data

/-- A pandas dataframe: ordered column names and a list of rows; a row is
a function from column names to cell values. -/
structure Table where
  cols : List String
  rows : List (String → PVal)

/-- Functional update of one cell of a row (a pandas column assignment,
restricted to the row). -/
def updateCol (r : String → PVal) (n : String) (v : PVal) : String → PVal :=
  fun m => if m = n then v else r m

/-! Interim stage (`src/census/interim.py`): share derivation, NaN-column
dropping, aggregation-policy map and groupby aggregation. -/

/-- Column names used by the election share derivation. -/
def TURNOUT_COL : String := "[ELECTION]_TURNOUT"

def ELECTORATE_COL : String := "[ELECTION]_ELECTORATE"

def ABSTENTIONS_COL : String := "[ELECTION]_ABSTENTIONS"

def NULL_COL : String := "[ELECTION]_NULL"

def BLANK_COL : String := "[ELECTION]_BLANK"

/-- The suffix appended to a column name for its share column
(`f"{col}_(%)"` in `_create_candidates_shares`). -/
def SHARE_SUFFIX : String := "_(%)"

/-- `Interim._get_candidate_cols`: the columns whose name contains
`"CANDIDATE"`. -/
def candidateCols (t : Table) : List String :=
  t.cols.filter (fun c => containsTag "CANDIDATE" c)

/-- `Interim._create_candidates_shares`, restricted to one row: for each
candidate column `col` (snapshot taken before the loop), assign
`col_(%) := 100 * row[col] / row[TURNOUT]`, reading from the row as
updated so far (as the mutating pandas assignments do). -/
def candShareFold (cands : List String) (r : String → PVal) : String → PVal :=
  cands.foldl
    (fun acc col =>
      updateCol acc (col ++ SHARE_SUFFIX)
        (pdiv (pmul (.num 100) (acc col)) (acc TURNOUT_COL)))
    r

/-- `Interim._create_shares_attributes` on one row: candidate shares, then
null and blank shares, then turnout and abstention rates, in source
order. -/
def shareRow (cands : List String) (r : String → PVal) : String → PVal :=
  let r1 := candShareFold cands r
  let r2 := updateCol r1 (NULL_COL ++ SHARE_SUFFIX)
    (pdiv (pmul (.num 100) (r1 NULL_COL)) (r1 TURNOUT_COL))
  let r3 := updateCol r2 (BLANK_COL ++ SHARE_SUFFIX)
    (pdiv (pmul (.num 100) (r2 BLANK_COL)) (r2 TURNOUT_COL))
  let r4 := updateCol r3 (TURNOUT_COL ++ SHARE_SUFFIX)
    (pdiv (pmul (.num 100) (r3 TURNOUT_COL)) (r3 ELECTORATE_COL))
  let r5 := updateCol r4 (ABSTENTIONS_COL ++ SHARE_SUFFIX)
    (pdiv (pmul (.num 100) (r4 ABSTENTIONS_COL)) (r4 ELECTORATE_COL))
  r5

/-- `Interim._create_shares_attributes` on a whole table: every row gets
the derived share columns; the new columns are appended in assignment
order. -/
def create_shares_attributes (t : Table) : Table where
  cols := t.cols ++ (candidateCols t).map (fun c => c ++ SHARE_SUFFIX) ++
    [NULL_COL ++ SHARE_SUFFIX, BLANK_COL ++ SHARE_SUFFIX,
     TURNOUT_COL ++ SHARE_SUFFIX, ABSTENTIONS_COL ++ SHARE_SUFFIX]
  rows := t.rows.map (shareRow (candidateCols t))

/-- `Interim._drop_na_cols`: `dropna(axis=1)` removes every column that
contains at least one missing value; rows are untouched. -/
def drop_na_cols (t : Table) : Table where
  cols := t.cols.filter (fun c => t.rows.all (fun r => !(r c == .na)))
  rows := t.rows

/-- `pandas.api.types.is_numeric_dtype` for a column of the embedded
table: the column holds no string cell (an all-`NaN` column is a float
column, hence numeric). -/
def numericCol (t : Table) (c : String) : Bool :=
  t.rows.all (fun r => !isStr (r c))

/-- The aggregator chosen by `Interim._create_aggregation_map` for one
column: `"sum"` for a numeric column whose name does not contain
`"_ID_"`, else `"first"`. -/
def aggHow (t : Table) (c : String) : String :=
  if numericCol t c && !containsTag "_ID_" c then "sum" else "first"

/-- `Interim._create_aggregation_map`: the dict comprehension mapping
every column of the table to its aggregator. -/
def create_aggregation_map (t : Table) : List (String × String) :=
  t.cols.map (fun c => (c, aggHow t c))

/-- The tuple of group-key values of a row (the groupby key). -/
def keyTuple (ks : List String) (r : String → PVal) : List PVal :=
  ks.map r

/-- A row participates in a pandas groupby only when none of its group-key
values is missing (`groupby` drops `NaN` keys). -/
def validRow (ks : List String) (r : String → PVal) : Bool :=
  (keyTuple ks r).all (fun v => !(v == .na))

/-- The rows of a table that participate in the groupby. -/
def validRows (t : Table) (ks : List String) : List (String → PVal) :=
  t.rows.filter (validRow ks)

/-- The distinct group keys of a groupby (one per output row). -/
def groupKeys (t : Table) (ks : List String) : List (List PVal) :=
  ((validRows t ks).map (keyTuple ks)).dedup

/-- The rows of one group, in original order. -/
def groupRows (t : Table) (ks : List String) (g : List PVal) :
    List (String → PVal) :=
  (validRows t ks).filter (fun r => keyTuple ks r == g)

/-- Pandas `sum` aggregation of a list of cells: `NaN` entries are
skipped, the empty (or all-`NaN`) sum is `0`. -/
def psum (vs : List PVal) : PVal :=
  (vs.filter (fun v => !(v == .na))).foldl padd (.num 0)

/-- Pandas `first` aggregation of a list of cells: the first non-missing
value, `NaN` when every value is missing. -/
def pfirst (vs : List PVal) : PVal :=
  ((vs.filter (fun v => !(v == .na))).head?).getD .na

/-- Application of one aggregator to the cells of a column inside one
group. -/
def aggValue (how : String) (vs : List PVal) : PVal :=
  if how = "sum" then psum vs else pfirst vs

/-- The aggregated cell of column `c` for group `g`. -/
def aggCell (t : Table) (ks : List String) (g : List PVal) (c : String) :
    PVal :=
  aggValue (aggHow t c) ((groupRows t ks g).map (fun r => r c))

/-- `Interim._aggregate_data`: `groupby(by=group_keys).agg(agg_map)` —
one output row per distinct group key, every column aggregated by the
policy map computed on the input table. -/
def aggregate_data (t : Table) (ks : List String) : Table where
  cols := t.cols
  rows := (groupKeys t ks).map (fun g => fun c => aggCell t ks g c)

/-! Processed stage (`src/census/processed.py`): outer-join merge with
collision suffixing, geo-column pruning, and normalization. -/

def GEO_TAG : String := "[GEO]"

def CENSUS_TAG : String := "[CENSUS]"

def DELETE_TAG : String := "[DELETE]"

/-- A keyed dataframe as handled by `Processed._merge_data`: the
aggregation-level key column is kept apart (`keys`, of integer geographic
ids), `cols` are the non-key columns, and `val k c` is the cell of key
`k` in column `c`. -/
structure DF where
  cols : List String
  keys : List Int
  val : Int → String → PVal

/-- The suffix rule of `merge(..., suffixes=("", DELETE_TAG))`: a column
of the right frame colliding with a left-frame column gets the
`[DELETE]` suffix, the left copy keeps its name. -/
def suffixCol (base : List String) (c : String) : String :=
  if base.contains c then c ++ DELETE_TAG else c

/-- Cell lookup in the outer-merged frame: a column named like a
left-frame column resolves to the left frame, a fresh right-frame column
to the right frame, and a suffixed column back to the right frame's
original column; keys absent from the owning frame give `NaN` (the outer
join fills missing matches with `NaN`). -/
def mergeVal (a b : DF) (k : Int) (c : String) : PVal :=
  if a.cols.contains c then (if a.keys.contains k then a.val k c else .na)
  else if b.cols.contains c then
    (if b.keys.contains k then b.val k c else .na)
  else
    (if b.keys.contains k then
      b.val k (String.dropRight c DELETE_TAG.length) else .na)

/-- One step of `Processed._merge_data`:
`merge(interim_data, on=key, how="outer", suffixes=("", DELETE_TAG))`. -/
def mergeOuter (a b : DF) : DF where
  cols := a.cols ++ b.cols.map (suffixCol a.cols)
  keys := a.keys ++ b.keys.filter (fun k => !(a.keys.contains k))
  val := mergeVal a b

/-- The initial empty accumulator (`pd.DataFrame()`). -/
def emptyDF : DF where
  cols := []
  keys := []
  val := fun _ _ => .na

/-- `Processed._drop_duplicated_col_from_merge`: drop every column whose
name contains `DELETE_TAG`. -/
def drop_duplicated_col_from_merge (d : DF) : DF where
  cols := d.cols.filter (fun c => !containsTag DELETE_TAG c)
  keys := d.keys
  val := d.val

/-- `Processed._merge_data`: fold the interim frames (in file order) into
the accumulator with the outer merge, the first frame seeding the
accumulator, then drop the suffixed duplicate columns. -/
def merge_data : List DF → DF
  | [] => drop_duplicated_col_from_merge emptyDF
  | d :: rest => drop_duplicated_col_from_merge (rest.foldl mergeOuter d)

/-- `AGGREGATION_LEVEL_MAP` of `processed.py`: level name, numeric rank,
geo tag. -/
def AGGREGATION_LEVEL_MAP : List (String × ℕ × String) :=
  [("census tract", (1, "CENSUS_TRACT")),
   ("neighborhood", (2, "NEIGHBORHOOD")),
   ("subdistrict", (3, "SUBDISTRICT")),
   ("district", (4, "DISTRICT")),
   ("city", (5, "CITY")),
   ("micro region", (6, "MICRO_REGION")),
   ("meso region", (7, "MESO_REGION")),
   ("uf", (8, "UF")),
   ("rm", (9, "RM")),
   ("region", (10, "REGION"))]

/-- The numeric rank of an aggregation level. -/
def levelOf (lvl : String) : ℕ :=
  ((AGGREGATION_LEVEL_MAP.lookup lvl).map Prod.fst).getD 0

/-- The tags of the levels of coarser-or-equal rank than `lvl`
(`col_tags` in `_remove_uncessary_geo_cols`). -/
def keptTags (lvl : String) : List String :=
  (AGGREGATION_LEVEL_MAP.filter (fun p => levelOf lvl ≤ p.2.1)).map
    (fun p => p.2.2)

/-- The `geo_cols` local of `_remove_uncessary_geo_cols`: the columns
whose name contains `[GEO]`. -/
def geo_cols_of (t : Table) : List String :=
  t.cols.filter (fun c => containsTag GEO_TAG c)

/-- The `keep_cols` local of `_remove_uncessary_geo_cols`: the geo
columns whose name contains some coarser-or-equal level tag. -/
def keep_cols_of (t : Table) (lvl : String) : List String :=
  (geo_cols_of t).filter
    (fun c => (keptTags lvl).any (fun tag => containsTag tag c))

/-- The `drop_cols` local of `_remove_uncessary_geo_cols`: the geo
columns not in `keep_cols`. -/
def drop_cols_of (t : Table) (lvl : String) : List String :=
  (geo_cols_of t).filter (fun c => !((keep_cols_of t lvl).contains c))

/-- `Processed._remove_uncessary_geo_cols`: a `[GEO]` column is kept when
some coarser-or-equal level tag occurs as a substring of its name, and is
dropped otherwise; non-geo columns are untouched. -/
def remove_uncessary_geo_cols (t : Table) (lvl : String) : Table where
  cols := t.cols.filter (fun c => !((drop_cols_of t lvl).contains c))
  rows := t.rows

/-- `Processed._normalize_by_total` on one row: every column of the group
is divided by the row's value of the group's total column (the divisor
read before any assignment, as `DataFrame.divide` evaluates its operands
first). -/
def totalRatioRow (cols : List String) (total_col : String)
    (r : String → PVal) : String → PVal :=
  fun c => if cols.contains c then pdiv (r c) (r total_col) else r c

/-- `Processed._normalize_by_total` on a table. -/
def normalize_by_total (t : Table) (cols : List String)
    (total_col : String) : Table where
  cols := t.cols
  rows := t.rows.map (totalRatioRow cols total_col)

/-- The cells of one column, in row order. -/
def colVals (t : Table) (c : String) : List PVal :=
  t.rows.map (fun r => r c)

/-- Pairwise minimum of float cells (used by the column-wise `min`). -/
def pmin2 : PVal → PVal → PVal
  | .num a, .num b => .num (min a b)
  | .ninf, _ => .ninf
  | _, .ninf => .ninf
  | .num a, .pinf => .num a
  | .pinf, .num b => .num b
  | .pinf, .pinf => .pinf
  | _, _ => .na

/-- Pairwise maximum of float cells. -/
def pmax2 : PVal → PVal → PVal
  | .num a, .num b => .num (max a b)
  | .pinf, _ => .pinf
  | _, .pinf => .pinf
  | .num a, .ninf => .num a
  | .ninf, .num b => .num b
  | .ninf, .ninf => .ninf
  | _, _ => .na

/-- Pandas column-wise `min` (`NaN`-skipping; `NaN` when no value). -/
def pminList (vs : List PVal) : PVal :=
  match vs.filter (fun v => !(v == .na)) with
  | [] => .na
  | x :: rest => rest.foldl pmin2 x

/-- Pandas column-wise `max` (`NaN`-skipping; `NaN` when no value). -/
def pmaxList (vs : List PVal) : PVal :=
  match vs.filter (fun v => !(v == .na)) with
  | [] => .na
  | x :: rest => rest.foldl pmax2 x

/-- `Processed._normalize_by_mim_max` on one row:
`(x - col.min()) / (col.max() - col.min())`, the extrema computed on the
original table. -/
def minMaxRow (t : Table) (cols : List String) (r : String → PVal) :
    String → PVal :=
  fun c =>
    if cols.contains c then
      pdiv (psub (r c) (pminList (colVals t c)))
        (psub (pmaxList (colVals t c)) (pminList (colVals t c)))
    else r c

/-- `Processed._normalize_by_mim_max` on a table. -/
def normalize_by_mim_max (t : Table) (cols : List String) : Table where
  cols := t.cols
  rows := t.rows.map (minMaxRow t cols)

/-! Resilient reader (spec §4.1). -/

/-- Modelled from the spec: the parsed table produced by one read attempt.
The resilient reader with the encoding/delimiter fallback chain belongs to
the census counterpart of the interim module, which is not among the files
under `src/` (the election `_read_results_csv` in `src/census/interim.py`
reads with one fixed encoding and delimiter); only its structural
validation surface is needed here. -/
structure ParsedTable where
  cols : List String
  cells : List (List String)
deriving DecidableEq, Repr

/-- Modelled from the spec: the structural validation check — "either the
declared key columns are present (possibly after correcting for a known
typo'd variant of one key column name) or more than one column was
produced". `fixTypo` canonicalizes the known typo'd column-name
variant. -/
def validTable (keyCols : List String) (fixTypo : String → String)
    (tb : ParsedTable) : Bool :=
  keyCols.all (fun k => (tb.cols.map fixTypo).contains k) ||
    decide (1 < tb.cols.length)

/-- Modelled from the spec: the Cartesian product of candidate encodings
and delimiters, "in a fixed priority order". -/
def attemptPairs (encodings delimiters : List String) :
    List (String × String) :=
  encodings.flatMap (fun e => delimiters.map (fun d => (e, d)))

/-- Modelled from the spec: one read attempt succeeds when the parse does
not throw (here: returns `some`) and the validation check passes. -/
def attemptOk (parse : String → String → Option ParsedTable)
    (keyCols : List String) (fixTypo : String → String)
    (p : String × String) : Bool :=
  match parse p.1 p.2 with
  | some tb => validTable keyCols fixTypo tb
  | none => false

/-- Modelled from the spec: "stop at first success" — the first
encoding/delimiter pair whose attempt validates. -/
def firstValidAttempt (parse : String → String → Option ParsedTable)
    (keyCols : List String) (fixTypo : String → String) :
    List (String × String) → Option (String × String)
  | [] => none
  | p :: rest =>
      if attemptOk parse keyCols fixTypo p then some p
      else firstValidAttempt parse keyCols fixTypo rest

/-- Modelled from the spec: the Resilient Reader — produce the parsed
table and the encoding/delimiter pair that worked, or fail with
`UnreadableSourceError` when no combination validates. -/
def read_with_fallback (parse : String → String → Option ParsedTable)
    (keyCols : List String) (fixTypo : String → String)
    (encodings delimiters : List String) :
    Except String (ParsedTable × String × String) :=
  match firstValidAttempt parse keyCols fixTypo
      (attemptPairs encodings delimiters) with
  | some p =>
      match parse p.1 p.2 with
      | some tb => .ok (tb, p.1, p.2)
      | none => .error "UnreadableSourceError"
  | none => .error "UnreadableSourceError"

/-! Concrete data used by the witness and counterexample theorems. -/

/-- A row given by an association list; absent columns are missing. -/
def rowOf (l : List (String × PVal)) : String → PVal :=
  fun c => (l.lookup c).getD .na

/-- The election row of the spec scenario: electorate 100, turnout 80,
abstentions 20, candidate votes 50 and 20, blank 5, null 5. -/
def exShareRow : String → PVal :=
  rowOf [(ELECTORATE_COL, .num 100), (TURNOUT_COL, .num 80),
    (ABSTENTIONS_COL, .num 20), ("[ELECTION]_CANDIDATE_1", .num 50),
    ("[ELECTION]_CANDIDATE_2", .num 20), (BLANK_COL, .num 5),
    (NULL_COL, .num 5)]

/-- The aggregated election table of the spec scenario (one row). -/
def exShareTable : Table where
  cols := [ELECTORATE_COL, TURNOUT_COL, ABSTENTIONS_COL,
    "[ELECTION]_CANDIDATE_1", "[ELECTION]_CANDIDATE_2", BLANK_COL,
    NULL_COL]
  rows := [exShareRow]

/-- Interim frame `A` of the merge scenario: key=[1,2], x=[10,20]. -/
def dfA : DF where
  cols := ["x"]
  keys := [1, 2]
  val := fun k c =>
    if c = "x" then
      (if k = 1 then .num 10 else if k = 2 then .num 20 else .na)
    else .na

/-- Interim frame `B` of the merge scenario: key=[2,3], x=[5,99],
y=[7,8]. -/
def dfB : DF where
  cols := ["x", "y"]
  keys := [2, 3]
  val := fun k c =>
    if c = "x" then (if k = 2 then .num 5 else if k = 3 then .num 99 else .na)
    else if c = "y" then
      (if k = 2 then .num 7 else if k = 3 then .num 8 else .na)
    else .na

def UF_COL : String := "[GEO]_UF"

def CITY_COL : String := "[GEO]_CITY"

def ZONE_COL : String := "[GEO]_ID_POLLING_ZONE"

def VOTES_COL : String := "[ELECTION]_VOTES"

/-- A small election table: three polling-zone rows in two cities. -/
def exAggTable : Table where
  cols := [UF_COL, CITY_COL, ZONE_COL, VOTES_COL]
  rows :=
    [rowOf [(UF_COL, .str "A"), (CITY_COL, .str "c1"), (ZONE_COL, .num 1),
       (VOTES_COL, .num 5)],
     rowOf [(UF_COL, .str "A"), (CITY_COL, .str "c1"), (ZONE_COL, .num 2),
       (VOTES_COL, .num 7)],
     rowOf [(UF_COL, .str "A"), (CITY_COL, .str "c2"), (ZONE_COL, .num 1),
       (VOTES_COL, .num 3)]]

/-- A table with one row whose fine-level key (`ZONE`) is missing: the
row aggregates at city level but is dropped by the finer groupby. -/
def exNaKeyTable : Table where
  cols := [UF_COL, CITY_COL, ZONE_COL, VOTES_COL]
  rows :=
    [rowOf [(UF_COL, .str "A"), (CITY_COL, .str "c1"),
       (VOTES_COL, .num 5)]]

/-- A one-column geo table exercising the substring pruning rule. -/
def exGeoTable : Table where
  cols := ["[GEO]_ID_SUBDISTRICT"]
  rows := []

/-- A table whose column `c` is constant (min = max). -/
def exConstTable : Table where
  cols := ["c"]
  rows := [rowOf [("c", .num 5)]]

/-- The row of `exMinMaxTable` holding the minimum. -/
def exMinRow : String → PVal := rowOf [("c", .num 0)]

/-- The row of `exMinMaxTable` holding the maximum. -/
def exMaxRow : String → PVal := rowOf [("c", .num 1)]

/-- A table whose column `c` takes the values 0 and 1. -/
def exMinMaxTable : Table where
  cols := ["c"]
  rows := [exMinRow, exMaxRow]

/-- A table with a zero total column `T` and a nonzero measure `v`. -/
def exZeroTotalTable : Table where
  cols := ["v", "T"]
  rows := [rowOf [("v", .num 5), ("T", .num 0)]]

/-- A table with a missing value inside column `b`. -/
def exNaColTable : Table where
  cols := ["a", "b"]
  rows := [rowOf [("a", .num 1), ("b", .num 2)], rowOf [("a", .num 3)]]

/-- A concrete parse oracle for the reader witness: `latin1` with `";"`
decodes to a two-column table, `utf-8` throws, and every other
combination produces a single-column misparse. -/
def exParse (e d : String) : Option ParsedTable :=
  if e = "utf-8" then none
  else if e = "latin1" && d = ";" then
    some ⟨["SG_ UF", "QT_VOTOS"], [["SP", "10"]]⟩
  else some ⟨["SG_ UF;QT_VOTOS"], [["SP;10"]]⟩

/-- The known-typo correction of the spec: the key column `SG_ UF`
appears with a spurious blank in one regional file. -/
def exFixTypo (c : String) : String := if c = "SG_ UF" then "SG_UF" else c

/-- A parse oracle under which no combination validates. -/
def exParseBad (_ _ : String) : Option ParsedTable :=
  some ⟨["only-one-col"], []⟩

/-- Invariant carried through the merge fold: the accumulator's key set
is the union of the processed frames' key sets, its `[DELETE]`-free
column set is the union of their column sets, and every `[DELETE]`-free
column resolves, at every accumulated key, to the first processed frame
defining it. -/
def MergeInv (done : List DF) (acc : DF) : Prop :=
  (∀ k : Int, k ∈ acc.keys ↔ ∃ df ∈ done, k ∈ df.keys) ∧
  (∀ c : String, containsTag DELETE_TAG c = false →
    (c ∈ acc.cols ↔ ∃ df ∈ done, c ∈ df.cols)) ∧
  (∀ pre d post, done = pre ++ d :: post →
    ∀ c ∈ d.cols, (∀ df ∈ pre, c ∉ df.cols) →
    containsTag DELETE_TAG c = false →
    ∀ k ∈ acc.keys, acc.val k c = if k ∈ d.keys then d.val k c else .na)

/-! Helper lemmas. -/

theorem prefixOfChars_refl (l : List Char) : prefixOfChars l l = true := by
  induction l with
  | nil => rfl
  | cons a as ih => simp [prefixOfChars, ih]

theorem substrChars_append_self (t : List Char) :
    ∀ xs : List Char, substrChars t (xs ++ t) = true := by
  intro xs
  induction xs with
  | nil =>
      cases t with
      | nil => rfl
      | cons c cs => simp [substrChars, prefixOfChars_refl]
  | cons x xs ih => simp [substrChars, ih]

theorem containsTag_append_self (s t : String) :
    containsTag t (s ++ t) = true := by
  unfold containsTag
  rw [String.data_append]
  exact substrChars_append_self _ _

theorem ne_of_containsTag_ne {tag a b : String}
    (ha : containsTag tag a = true) (hb : containsTag tag b = false) :
    a ≠ b := by
  intro h
  rw [h, hb] at ha
  simp at ha

theorem append_right_cancel_str {a b s : String} (h : a ++ s = b ++ s) :
    a = b := by
  apply String.ext
  have := congrArg String.data h
  rw [String.data_append, String.data_append] at this
  exact List.append_cancel_right this

theorem updateCol_same (r : String → PVal) (n : String) (v : PVal) :
    updateCol r n v n = v := by
  simp [updateCol]

theorem updateCol_ne (r : String → PVal) {n m : String} (v : PVal)
    (h : m ≠ n) : updateCol r n v m = r m := by
  simp [updateCol, h]

theorem psum_aux (vs : List PVal) :
    ∀ q : ℚ, (∀ v ∈ vs, finOrNa v = true) →
    (vs.filter (fun v => !(v == .na))).foldl padd (.num q) =
      .num (q + (vs.map contrib).sum) := by
  induction vs with
  | nil => intro q _; simp
  | cons v rest ih =>
      intro q h
      have hv := h v (List.mem_cons_self _ _)
      have hrest : ∀ w ∈ rest, finOrNa w = true :=
        fun w hw => h w (List.mem_cons_of_mem _ hw)
      cases v with
      | na =>
          simp only [List.filter_cons, List.map_cons]
          norm_num [contrib, ih q hrest]
      | num a =>
          simp only [List.filter_cons, List.map_cons]
          have : ((PVal.num a == PVal.na) : Bool) = false := by simp
          simp only [this, Bool.not_false, if_pos, List.foldl_cons]
          rw [show padd (.num q) (.num a) = .num (q + a) from rfl,
            ih (q + a) hrest]
          norm_num [contrib]
          ring
      | pinf => simp [finOrNa] at hv
      | ninf => simp [finOrNa] at hv
      | str s => simp [finOrNa] at hv

theorem psum_eq_contrib {vs : List PVal}
    (h : ∀ v ∈ vs, finOrNa v = true) :
    psum vs = .num ((vs.map contrib).sum) := by
  unfold psum
  rw [psum_aux vs 0 h]
  norm_num

theorem pfirst_const {l : List PVal} {a : PVal} (hne : l ≠ [])
    (hall : ∀ v ∈ l, v = a) (ha : a ≠ .na) : pfirst l = a := by
  cases l with
  | nil => exact absurd rfl hne
  | cons v rest =>
      have hv : v = a := hall v (List.mem_cons_self _ _)
      subst hv
      have : ((v == PVal.na) : Bool) = false := by
        simp [ha]
      simp [pfirst, List.filter_cons, this]

theorem sum_split {α : Type} (p q : α → Bool) (v : α → ℚ) :
    ∀ rows : List α, (∀ r ∈ rows, ¬(p r = true ∧ q r = true)) →
    ((rows.filter (fun r => p r || q r)).map v).sum =
      ((rows.filter p).map v).sum + ((rows.filter q).map v).sum := by
  intro rows
  induction rows with
  | nil => intro _; simp
  | cons r rest ih =>
      intro h
      have hr := h r (List.mem_cons_self _ _)
      have hrest : ∀ x ∈ rest, ¬(p x = true ∧ q x = true) :=
        fun x hx => h x (List.mem_cons_of_mem _ hx)
      cases hp : p r <;> cases hq : q r
      · simp only [List.filter_cons, hp, hq]
        norm_num [ih hrest]
      · simp only [List.filter_cons, hp, hq]
        norm_num [ih hrest]
        ring
      · simp only [List.filter_cons, hp, hq]
        norm_num [ih hrest]
        ring
      · exact absurd ⟨hp, hq⟩ hr

theorem beq_eq_decide {α : Type} [BEq α] [LawfulBEq α] [DecidableEq α]
    (a b : α) : (a == b) = decide (a = b) := by
  by_cases h : a = b <;> simp [h]

theorem sum_partition {α β : Type} [DecidableEq β] (κ : α → β)
    (v : α → ℚ) (rows : List α) :
    ∀ L : List β, L.Nodup →
    (L.map (fun b =>
        ((rows.filter (fun r => decide (κ r = b))).map v).sum)).sum =
      ((rows.filter (fun r => L.any (fun b => κ r == b))).map v).sum := by
  intro L
  induction L with
  | nil =>
      intro _
      simp
  | cons b L' ih =>
      intro hnd
      have hb : b ∉ L' := (List.nodup_cons.mp hnd).1
      have hnd' : L'.Nodup := (List.nodup_cons.mp hnd).2
      have hcongr : rows.filter
          (fun r => (b :: L').any (fun x => κ r == x)) =
          rows.filter
            (fun r => decide (κ r = b) ||
              L'.any (fun x => κ r == x)) := by
        apply List.filter_congr
        intro r _
        rw [List.any_cons, beq_eq_decide]
      rw [List.map_cons, List.sum_cons, hcongr,
        sum_split (fun r => decide (κ r = b))
          (fun r => L'.any (fun x => κ r == x)) v rows ?_, ih hnd']
      intro r _ hrr
      have h1 := of_decide_eq_true hrr.1
      obtain ⟨x, hxL, hxeq⟩ := List.any_eq_true.mp hrr.2
      rw [beq_iff_eq] at hxeq
      rw [h1] at hxeq
      exact hb (hxeq ▸ hxL)

theorem map_eq_of_mem {α β : Type} {f g : α → β} :
    ∀ l : List α, l.map f = l.map g → ∀ a ∈ l, f a = g a := by
  intro l
  induction l with
  | nil => intro _ a ha; simp at ha
  | cons x xs ih =>
      intro h a ha
      simp only [List.map_cons, List.cons.injEq] at h
      rcases List.mem_cons.mp ha with rfl | ha'
      · exact h.1
      · exact ih h.2 a ha'

theorem lookup_map_self {β : Type} (f : String → β) :
    ∀ (l : List String) (c : String), c ∈ l →
    (l.map (fun x => (x, f x))).lookup c = some (f c) := by
  intro l
  induction l with
  | nil => intro c hc; simp at hc
  | cons a l' ih =>
      intro c hc
      by_cases hca : c = a
      · subst hca
        simp [List.lookup]
      · have : c ∈ l' := by
          rcases List.mem_cons.mp hc with h | h
          · exact absurd h hca
          · exact h
        have hba : ((c == a) : Bool) = false := by simp [hca]
        simp [List.lookup, hba, ih c this]

/-! Claim theorems. -/

/-- C10: `_drop_na_cols` keeps exactly the columns with no missing value,
so every remaining column of the per-file dataset is free of missing
values in every row. -/
theorem drop_na_cols_policy (t : Table) :
    (∀ c : String, c ∈ (drop_na_cols t).cols ↔
      c ∈ t.cols ∧ ∀ r ∈ t.rows, r c ≠ .na) ∧
    (∀ c ∈ (drop_na_cols t).cols, ∀ r ∈ (drop_na_cols t).rows,
      r c ≠ .na) := by
  constructor
  · intro c
    simp only [drop_na_cols, List.mem_filter, List.all_eq_true,
      Bool.not_eq_true', beq_eq_false_iff_ne, ne_eq]
  · intro c hc r hr
    have h : c ∈ t.cols ∧ ∀ r ∈ t.rows, r c ≠ .na := by
      have := hc
      simp only [drop_na_cols, List.mem_filter, List.all_eq_true,
        Bool.not_eq_true', beq_eq_false_iff_ne, ne_eq] at this
      tauto
    exact h.2 r hr

/-- C10 witness: in the concrete table, column `a` (never missing)
survives and its cells are non-missing. -/
theorem drop_na_cols_policy_witness :
    rowOf [("a", PVal.num 1), ("b", PVal.num 2)] "a" ≠ PVal.na :=
  (drop_na_cols_policy exNaColTable).2 "a" (by decide)
    (rowOf [("a", PVal.num 1), ("b", PVal.num 2)])
    (List.mem_cons_self _ _)

/-- C8: the aggregation-policy map assigns `sum` to a column exactly when
it is numeric and its name does not contain `_ID_`, and `first` in every
other case. -/
theorem aggregation_policy_map (t : Table) :
    ∀ c ∈ t.cols,
    ((create_aggregation_map t).lookup c = some "sum" ↔
      numericCol t c = true ∧ containsTag "_ID_" c = false) ∧
    ((create_aggregation_map t).lookup c = some "first" ↔
      ¬(numericCol t c = true ∧ containsTag "_ID_" c = false)) := by
  intro c hc
  have hl : (create_aggregation_map t).lookup c = some (aggHow t c) :=
    lookup_map_self (aggHow t) t.cols c hc
  have hsum : aggHow t c = "sum" ↔
      numericCol t c = true ∧ containsTag "_ID_" c = false := by
    unfold aggHow
    by_cases h : (numericCol t c && !containsTag "_ID_" c) = true
    · simp only [h, if_true]
      simp only [Bool.and_eq_true, Bool.not_eq_true'] at h
      simp [h]
    · simp only [h, if_false]
      simp only [Bool.and_eq_true, Bool.not_eq_true'] at h
      constructor
      · intro hh; exact absurd hh (by decide)
      · intro hh; exact absurd hh h
  have hfirst : aggHow t c = "first" ↔
      ¬(numericCol t c = true ∧ containsTag "_ID_" c = false) := by
    unfold aggHow
    by_cases h : (numericCol t c && !containsTag "_ID_" c) = true
    · simp only [h, if_true]
      simp only [Bool.and_eq_true, Bool.not_eq_true'] at h
      constructor
      · intro hh; exact absurd hh (by decide)
      · intro hh; exact absurd h hh
    · simp only [h, if_false]
      simp only [Bool.and_eq_true, Bool.not_eq_true'] at h
      simp [h]
  constructor
  · rw [hl]
    constructor
    · intro h
      exact hsum.mp (Option.some_injective _ h)
    · intro h
      rw [hsum.mpr h]
  · rw [hl]
    constructor
    · intro h
      exact hfirst.mp (Option.some_injective _ h)
    · intro h
      rw [hfirst.mpr h]

/-- C8 witness: the vote-count column gets `sum`, the zone identifier
column gets `first`. -/
theorem aggregation_policy_map_witness :
    (create_aggregation_map exAggTable).lookup VOTES_COL = some "sum" ∧
    (create_aggregation_map exAggTable).lookup ZONE_COL = some "first" :=
  ⟨((aggregation_policy_map exAggTable VOTES_COL (by decide)).1).mpr
      (by constructor <;> decide),
   ((aggregation_policy_map exAggTable ZONE_COL (by decide)).2).mpr
      (by decide)⟩

/-- C5 counterexample: with aggregation level `district`, the strictly
finer column `[GEO]_ID_SUBDISTRICT` is KEPT, because the coarser tag
`DISTRICT` occurs as a substring of `SUBDISTRICT` — the claim asserts
every SUBDISTRICT column is dropped at level `district`. -/
theorem geo_pruning_counterexample :
    "[GEO]_ID_SUBDISTRICT" ∈
      (remove_uncessary_geo_cols exGeoTable "district").cols ∧
    levelOf "subdistrict" < levelOf "district" := by
  constructor
  · decide
  · decide

/-- C5 amended: after geo-column pruning, a column survives iff it is a
column of the input and either is not a `[GEO]` column or its name
contains the tag of some coarser-or-equal aggregation level as a
substring (substring matching, not exact level comparison). -/
theorem geo_pruning_characterization (t : Table) (lvl : String)
    (c : String) :
    c ∈ (remove_uncessary_geo_cols t lvl).cols ↔
      c ∈ t.cols ∧ (containsTag GEO_TAG c = false ∨
        ∃ tag ∈ keptTags lvl, containsTag tag c = true) := by
  constructor
  · intro h
    rw [remove_uncessary_geo_cols] at h
    simp only [List.mem_filter] at h
    obtain ⟨hc, hdrop⟩ := h
    refine ⟨hc, ?_⟩
    by_cases hg : containsTag GEO_TAG c = true
    · right
      by_contra hno
      push_neg at hno
      have hkeep : (keep_cols_of t lvl).contains c = false := by
        by_contra hcon
        rw [Bool.not_eq_false] at hcon
        have := List.elem_iff.mp hcon
        rw [keep_cols_of, List.mem_filter, List.any_eq_true] at this
        obtain ⟨tag, htag, hct⟩ := this.2
        exact absurd hct (hno tag htag)
      have hmem : c ∈ drop_cols_of t lvl := by
        rw [drop_cols_of, List.mem_filter]
        refine ⟨?_, by rw [hkeep]; rfl⟩
        rw [geo_cols_of, List.mem_filter]
        exact ⟨hc, hg⟩
      have hcon : (drop_cols_of t lvl).contains c = true :=
        List.elem_iff.mpr hmem
      rw [hcon] at hdrop
      simp at hdrop
    · left
      exact Bool.not_eq_true _ ▸ hg
  · rintro ⟨hc, hcase⟩
    rw [remove_uncessary_geo_cols]
    simp only [List.mem_filter]
    refine ⟨hc, ?_⟩
    suffices hnd : c ∉ drop_cols_of t lvl by
      by_cases hcon : (drop_cols_of t lvl).contains c = true
      · exact absurd (List.elem_iff.mp hcon) hnd
      · rw [Bool.not_eq_true] at hcon
        rw [hcon]
        rfl
    intro hmem
    rw [drop_cols_of, List.mem_filter] at hmem
    obtain ⟨hgeo, hnk⟩ := hmem
    rw [geo_cols_of, List.mem_filter] at hgeo
    rcases hcase with hng | ⟨tag, htag, hct⟩
    · rw [hgeo.2] at hng
      exact absurd hng (by decide)
    · have : c ∈ keep_cols_of t lvl := by
        rw [keep_cols_of, List.mem_filter]
        refine ⟨?_, List.any_eq_true.mpr ⟨tag, htag, hct⟩⟩
        rw [geo_cols_of, List.mem_filter]
        exact hgeo
      have hcon : (keep_cols_of t lvl).contains c = true :=
        List.elem_iff.mpr this
      rw [hcon] at hnk
      simp at hnk

theorem ne_share_name {n : String} (c : String)
    (hn : containsTag SHARE_SUFFIX n = false) : n ≠ c ++ SHARE_SUFFIX :=
  (ne_of_containsTag_ne (containsTag_append_self c SHARE_SUFFIX) hn).symm

theorem ne_append_suffix {a b : String} (h : a ≠ b) :
    a ++ SHARE_SUFFIX ≠ b ++ SHARE_SUFFIX :=
  fun he => h (append_right_cancel_str he)

theorem candShareFold_read (cands : List String) :
    ∀ (r : String → PVal) (n : String),
    (∀ c ∈ cands, n ≠ c ++ SHARE_SUFFIX) →
    candShareFold cands r n = r n := by
  induction cands with
  | nil => intro r n _; rfl
  | cons c cs ih =>
      intro r n h
      show candShareFold cs
        (updateCol r (c ++ SHARE_SUFFIX)
          (pdiv (pmul (.num 100) (r c)) (r TURNOUT_COL))) n = r n
      rw [ih _ n (fun c' hc' => h c' (List.mem_cons_of_mem _ hc'))]
      exact updateCol_ne _ _ (h c (List.mem_cons_self _ _))

theorem candShareFold_read_clean (cands : List String) (r : String → PVal)
    (n : String) (hn : containsTag SHARE_SUFFIX n = false) :
    candShareFold cands r n = r n :=
  candShareFold_read cands r n (fun c _ => ne_share_name c hn)

theorem candShareFold_share (l1 : List String) :
    ∀ (l2 : List String) (c : String) (r : String → PVal),
    containsTag SHARE_SUFFIX c = false → c ∉ l2 →
    candShareFold (l1 ++ c :: l2) r (c ++ SHARE_SUFFIX) =
      pdiv (pmul (.num 100) (r c)) (r TURNOUT_COL) := by
  induction l1 with
  | nil =>
      intro l2 c r hcc hc2
      show candShareFold l2
        (updateCol r (c ++ SHARE_SUFFIX)
          (pdiv (pmul (.num 100) (r c)) (r TURNOUT_COL)))
        (c ++ SHARE_SUFFIX) = _
      rw [candShareFold_read l2 _ _
        (fun c2 hc2m he =>
          hc2 (by rw [append_right_cancel_str he]; exact hc2m))]
      exact updateCol_same _ _ _
  | cons x l1' ih =>
      intro l2 c r hcc hc2
      show candShareFold (l1' ++ c :: l2)
        (updateCol r (x ++ SHARE_SUFFIX)
          (pdiv (pmul (.num 100) (r x)) (r TURNOUT_COL)))
        (c ++ SHARE_SUFFIX) = _
      rw [ih l2 c _ hcc hc2,
        updateCol_ne _ _ (ne_share_name x hcc),
        updateCol_ne _ _ (ne_share_name x (by decide))]

theorem shareRow_read_clean (cands : List String) (r : String → PVal)
    (n : String) (hn : containsTag SHARE_SUFFIX n = false) :
    shareRow cands r n = r n := by
  unfold shareRow
  rw [updateCol_ne _ _ (ne_share_name ABSTENTIONS_COL hn),
    updateCol_ne _ _ (ne_share_name TURNOUT_COL hn),
    updateCol_ne _ _ (ne_share_name BLANK_COL hn),
    updateCol_ne _ _ (ne_share_name NULL_COL hn)]
  exact candShareFold_read_clean cands r n hn

theorem shareRow_null (cands : List String) (r : String → PVal) :
    shareRow cands r (NULL_COL ++ SHARE_SUFFIX) =
      pdiv (pmul (.num 100) (r NULL_COL)) (r TURNOUT_COL) := by
  unfold shareRow
  rw [updateCol_ne _ _ (ne_append_suffix (by decide)),
    updateCol_ne _ _ (ne_append_suffix (by decide)),
    updateCol_ne _ _ (ne_append_suffix (by decide)),
    updateCol_same,
    candShareFold_read_clean cands r NULL_COL (by decide),
    candShareFold_read_clean cands r TURNOUT_COL (by decide)]

theorem shareRow_blank (cands : List String) (r : String → PVal) :
    shareRow cands r (BLANK_COL ++ SHARE_SUFFIX) =
      pdiv (pmul (.num 100) (r BLANK_COL)) (r TURNOUT_COL) := by
  unfold shareRow
  rw [updateCol_ne _ _ (ne_append_suffix (by decide)),
    updateCol_ne _ _ (ne_append_suffix (by decide)),
    updateCol_same,
    updateCol_ne _ _ (ne_share_name NULL_COL (by decide)),
    updateCol_ne _ _ (ne_share_name NULL_COL (by decide)),
    candShareFold_read_clean cands r BLANK_COL (by decide),
    candShareFold_read_clean cands r TURNOUT_COL (by decide)]

theorem shareRow_turnout (cands : List String) (r : String → PVal) :
    shareRow cands r (TURNOUT_COL ++ SHARE_SUFFIX) =
      pdiv (pmul (.num 100) (r TURNOUT_COL)) (r ELECTORATE_COL) := by
  unfold shareRow
  rw [updateCol_ne _ _ (ne_append_suffix (by decide)),
    updateCol_same,
    updateCol_ne _ _ (ne_share_name BLANK_COL (by decide)),
    updateCol_ne _ _ (ne_share_name NULL_COL (by decide)),
    updateCol_ne _ _ (ne_share_name BLANK_COL (by decide)),
    updateCol_ne _ _ (ne_share_name NULL_COL (by decide)),
    candShareFold_read_clean cands r TURNOUT_COL (by decide),
    candShareFold_read_clean cands r ELECTORATE_COL (by decide)]

theorem shareRow_abstention (cands : List String) (r : String → PVal) :
    shareRow cands r (ABSTENTIONS_COL ++ SHARE_SUFFIX) =
      pdiv (pmul (.num 100) (r ABSTENTIONS_COL)) (r ELECTORATE_COL) := by
  unfold shareRow
  rw [updateCol_same,
    updateCol_ne _ _ (ne_share_name TURNOUT_COL (by decide)),
    updateCol_ne _ _ (ne_share_name BLANK_COL (by decide)),
    updateCol_ne _ _ (ne_share_name NULL_COL (by decide)),
    updateCol_ne _ _ (ne_share_name TURNOUT_COL (by decide)),
    updateCol_ne _ _ (ne_share_name BLANK_COL (by decide)),
    updateCol_ne _ _ (ne_share_name NULL_COL (by decide)),
    candShareFold_read_clean cands r ABSTENTIONS_COL (by decide),
    candShareFold_read_clean cands r ELECTORATE_COL (by decide)]

theorem shareRow_cand (cands : List String) (r : String → PVal)
    (c : String) (hc : c ∈ cands) (hnd : cands.Nodup)
    (hcc : containsTag SHARE_SUFFIX c = false)
    (hcand : containsTag "CANDIDATE" c = true) :
    shareRow cands r (c ++ SHARE_SUFFIX) =
      pdiv (pmul (.num 100) (r c)) (r TURNOUT_COL) := by
  have hne : ∀ b : String, containsTag "CANDIDATE" b = false →
      c ++ SHARE_SUFFIX ≠ b ++ SHARE_SUFFIX :=
    fun b hb => ne_append_suffix (ne_of_containsTag_ne hcand hb)
  unfold shareRow
  rw [updateCol_ne _ _ (hne ABSTENTIONS_COL (by decide)),
    updateCol_ne _ _ (hne TURNOUT_COL (by decide)),
    updateCol_ne _ _ (hne BLANK_COL (by decide)),
    updateCol_ne _ _ (hne NULL_COL (by decide))]
  obtain ⟨l1, l2, rfl⟩ := List.append_of_mem hc
  have hnotl2 : c ∉ l2 := by
    have h2 : (c :: l2).Nodup := (List.nodup_append.mp hnd).2.1
    exact (List.nodup_cons.mp h2).1
  exact candShareFold_share l1 l2 c r hcc hnotl2

/-- C2: every row of the aggregated election dataset gets share columns
equal to `100 * votes / turnout` for candidate, blank and null columns,
`100 * turnout / electorate` for the turnout rate and
`100 * abstentions / electorate` for the abstention rate. -/
theorem election_share_derivation (t : Table) (r : String → PVal)
    (hr : r ∈ t.rows)
    (hclean : ∀ c' ∈ candidateCols t,
      containsTag SHARE_SUFFIX c' = false)
    (hnd : (candidateCols t).Nodup) :
    shareRow (candidateCols t) r ∈ (create_shares_attributes t).rows ∧
    (∀ c ∈ candidateCols t,
      shareRow (candidateCols t) r (c ++ SHARE_SUFFIX) =
        pdiv (pmul (.num 100) (r c)) (r TURNOUT_COL)) ∧
    shareRow (candidateCols t) r (NULL_COL ++ SHARE_SUFFIX) =
      pdiv (pmul (.num 100) (r NULL_COL)) (r TURNOUT_COL) ∧
    shareRow (candidateCols t) r (BLANK_COL ++ SHARE_SUFFIX) =
      pdiv (pmul (.num 100) (r BLANK_COL)) (r TURNOUT_COL) ∧
    shareRow (candidateCols t) r (TURNOUT_COL ++ SHARE_SUFFIX) =
      pdiv (pmul (.num 100) (r TURNOUT_COL)) (r ELECTORATE_COL) ∧
    shareRow (candidateCols t) r (ABSTENTIONS_COL ++ SHARE_SUFFIX) =
      pdiv (pmul (.num 100) (r ABSTENTIONS_COL)) (r ELECTORATE_COL) := by
  refine ⟨?_, ?_, shareRow_null _ r, shareRow_blank _ r,
    shareRow_turnout _ r, shareRow_abstention _ r⟩
  · exact List.mem_map_of_mem _ hr
  · intro c hc
    have hcand : containsTag "CANDIDATE" c = true :=
      (List.mem_filter.mp hc).2
    exact shareRow_cand (candidateCols t) r c hc hnd (hclean c hc) hcand

/-- C2 witness: the spec scenario — electorate 100, turnout 80,
abstentions 20, candidate votes 50 and 20, blank 5, null 5 — yields
shares 62.5 and 25, blank and null 6.25, turnout 80, abstention 20. -/
theorem election_share_derivation_witness :
    shareRow (candidateCols exShareTable) exShareRow
      ("[ELECTION]_CANDIDATE_1" ++ SHARE_SUFFIX) = PVal.num 62.5 ∧
    shareRow (candidateCols exShareTable) exShareRow
      ("[ELECTION]_CANDIDATE_2" ++ SHARE_SUFFIX) = PVal.num 25 ∧
    shareRow (candidateCols exShareTable) exShareRow
      (BLANK_COL ++ SHARE_SUFFIX) = PVal.num 6.25 ∧
    shareRow (candidateCols exShareTable) exShareRow
      (NULL_COL ++ SHARE_SUFFIX) = PVal.num 6.25 ∧
    shareRow (candidateCols exShareTable) exShareRow
      (TURNOUT_COL ++ SHARE_SUFFIX) = PVal.num 80 ∧
    shareRow (candidateCols exShareTable) exShareRow
      (ABSTENTIONS_COL ++ SHARE_SUFFIX) = PVal.num 20 := by
  have h := election_share_derivation exShareTable exShareRow
    (List.mem_cons_self _ _) (by decide) (by decide)
  have e1 : exShareRow "[ELECTION]_CANDIDATE_1" = PVal.num 50 := by decide
  have e2 : exShareRow "[ELECTION]_CANDIDATE_2" = PVal.num 20 := by decide
  have eT : exShareRow TURNOUT_COL = PVal.num 80 := by decide
  have eE : exShareRow ELECTORATE_COL = PVal.num 100 := by decide
  have eA : exShareRow ABSTENTIONS_COL = PVal.num 20 := by decide
  have eB : exShareRow BLANK_COL = PVal.num 5 := by decide
  have eN : exShareRow NULL_COL = PVal.num 5 := by decide
  refine ⟨?_, ?_, ?_, ?_, ?_, ?_⟩
  · rw [h.2.1 "[ELECTION]_CANDIDATE_1" (by decide), e1, eT]
    norm_num [pmul, pdiv]
  · rw [h.2.1 "[ELECTION]_CANDIDATE_2" (by decide), e2, eT]
    norm_num [pmul, pdiv]
  · rw [h.2.2.2.1, eB, eT]
    norm_num [pmul, pdiv]
  · rw [h.2.2.1, eN, eT]
    norm_num [pmul, pdiv]
  · rw [h.2.2.2.2.1, eT, eE]
    norm_num [pmul, pdiv]
  · rw [h.2.2.2.2.2, eA, eE]
    norm_num [pmul, pdiv]

/-- C9 counterexample: a row with total 0 and measure 5 normalizes to
`+inf`, not to `NaN` as the claim states. -/
theorem ratio_zero_counterexample :
    ((normalize_by_total exZeroTotalTable ["v"] "T").rows.map
      (fun r => r "v")) = [PVal.pinf] ∧
    ¬(((normalize_by_total exZeroTotalTable ["v"] "T").rows.map
      (fun r => r "v")) = [PVal.na]) := by
  constructor
  · decide
  · decide

/-- C9 amended: ratio normalization and the share derivations are total
(never raise); a missing total yields a missing ratio, a zero total
yields `NaN` only for a zero or missing numerator and a signed infinity
for a nonzero one. -/
theorem ratio_zero_nan_semantics (t : Table) (cols : List String)
    (tc c : String) (r : String → PVal) (hc : cols.contains c = true) :
    (r ∈ t.rows →
      totalRatioRow cols tc r ∈ (normalize_by_total t cols tc).rows) ∧
    (r tc = .na → totalRatioRow cols tc r c = .na) ∧
    (r tc = .num 0 → r c = .na → totalRatioRow cols tc r c = .na) ∧
    (r tc = .num 0 → r c = .num 0 → totalRatioRow cols tc r c = .na) ∧
    (∀ q : ℚ, r tc = .num 0 → r c = .num q → 0 < q →
      totalRatioRow cols tc r c = .pinf) ∧
    (∀ q : ℚ, r tc = .num 0 → r c = .num q → q < 0 →
      totalRatioRow cols tc r c = .ninf) ∧
    (r ELECTORATE_COL = .na → ∀ cands : List String,
      shareRow cands r (TURNOUT_COL ++ SHARE_SUFFIX) = .na) ∧
    (∀ q : ℚ, r ELECTORATE_COL = .num 0 → r TURNOUT_COL = .num q →
      0 < q → ∀ cands : List String,
      shareRow cands r (TURNOUT_COL ++ SHARE_SUFFIX) = .pinf) := by
  refine ⟨?_, ?_, ?_, ?_, ?_, ?_, ?_, ?_⟩
  · intro hr
    exact List.mem_map_of_mem _ hr
  · intro h
    simp only [totalRatioRow, hc, if_true, h]
    cases r c <;> rfl
  · intro h hn
    simp [totalRatioRow, hc, h, hn, pdiv]
  · intro h hn
    simp only [totalRatioRow, hc, if_true, h, hn, pdiv]
    norm_num
  · intro q h hn hq
    simp only [totalRatioRow, hc, if_true, h, hn, pdiv]
    rw [if_pos hq]
  · intro q h hn hq
    simp only [totalRatioRow, hc, if_true, h, hn, pdiv]
    rw [if_neg (by linarith), if_pos hq]
  · intro h cands
    rw [shareRow_turnout cands r, h]
    cases pmul (.num 100) (r TURNOUT_COL) <;> rfl
  · intro q hE hT hq cands
    rw [shareRow_turnout cands r, hE, hT]
    have h100 : (0:ℚ) < 100 * q := by linarith
    show pdiv (PVal.num (100 * q)) (PVal.num 0) = PVal.pinf
    simp only [pdiv, if_true]
    rw [if_pos h100]

/-- C9 witness: with total 0 and a positive numerator, the ratio is
`+inf` (the amended behaviour), obtained from the amended theorem at the
concrete input. -/
theorem ratio_zero_nan_semantics_witness :
    totalRatioRow ["v"] "T" (rowOf [("v", PVal.num 5), ("T", PVal.num 0)])
      "v" = PVal.pinf :=
  (ratio_zero_nan_semantics exZeroTotalTable ["v"] "T" "v"
    (rowOf [("v", PVal.num 5), ("T", PVal.num 0)])
    (by decide)).2.2.2.2.1 5 (by decide) (by decide) (by norm_num)

theorem pmin2_fold_spec (xs : List PVal) :
    ∀ q : ℚ, (∀ v ∈ xs, ∃ a : ℚ, v = .num a) →
    ∃ m : ℚ, xs.foldl pmin2 (.num q) = .num m ∧ m ≤ q ∧
      (∀ v ∈ xs, ∀ a : ℚ, v = .num a → m ≤ a) ∧
      (m = q ∨ (PVal.num m) ∈ xs) := by
  induction xs with
  | nil =>
      intro q _
      exact ⟨q, rfl, le_refl q, by simp, Or.inl rfl⟩
  | cons v rest ih =>
      intro q h
      obtain ⟨a, rfl⟩ := h v (List.mem_cons_self _ _)
      have hrest : ∀ w ∈ rest, ∃ b : ℚ, w = .num b :=
        fun w hw => h w (List.mem_cons_of_mem _ hw)
      rw [List.foldl_cons, show pmin2 (.num q) (.num a) = .num (min q a)
        from rfl]
      obtain ⟨m, hm, hle, hbound, hatt⟩ := ih (min q a) hrest
      refine ⟨m, hm, le_trans hle (min_le_left _ _), ?_, ?_⟩
      · intro w hw b hb
        rcases List.mem_cons.mp hw with rfl | hw'
        · have hba : b = a := by
            injection hb with hh
            exact hh.symm
          exact hba ▸ le_trans hle (min_le_right _ _)
        · exact hbound w hw' b hb
      · rcases hatt with he | hmem
        · rcases min_choice q a with h1 | h1
          · exact Or.inl (he.trans h1)
          · refine Or.inr ?_
            rw [he, h1]
            exact List.mem_cons_self _ _
        · exact Or.inr (List.mem_cons_of_mem _ hmem)

theorem pmax2_fold_spec (xs : List PVal) :
    ∀ q : ℚ, (∀ v ∈ xs, ∃ a : ℚ, v = .num a) →
    ∃ m : ℚ, xs.foldl pmax2 (.num q) = .num m ∧ q ≤ m ∧
      (∀ v ∈ xs, ∀ a : ℚ, v = .num a → a ≤ m) ∧
      (m = q ∨ (PVal.num m) ∈ xs) := by
  induction xs with
  | nil =>
      intro q _
      exact ⟨q, rfl, le_refl q, by simp, Or.inl rfl⟩
  | cons v rest ih =>
      intro q h
      obtain ⟨a, rfl⟩ := h v (List.mem_cons_self _ _)
      have hrest : ∀ w ∈ rest, ∃ b : ℚ, w = .num b :=
        fun w hw => h w (List.mem_cons_of_mem _ hw)
      rw [List.foldl_cons, show pmax2 (.num q) (.num a) = .num (max q a)
        from rfl]
      obtain ⟨m, hm, hle, hbound, hatt⟩ := ih (max q a) hrest
      refine ⟨m, hm, le_trans (le_max_left _ _) hle, ?_, ?_⟩
      · intro w hw b hb
        rcases List.mem_cons.mp hw with rfl | hw'
        · have hba : b = a := by
            injection hb with hh
            exact hh.symm
          exact hba ▸ le_trans (le_max_right _ _) hle
        · exact hbound w hw' b hb
      · rcases hatt with he | hmem
        · rcases max_choice q a with h1 | h1
          · exact Or.inl (he.trans h1)
          · refine Or.inr ?_
            rw [he, h1]
            exact List.mem_cons_self _ _
        · exact Or.inr (List.mem_cons_of_mem _ hmem)

theorem filter_na_of_all_num {vs : List PVal}
    (h : ∀ v ∈ vs, ∃ a : ℚ, v = .num a) :
    vs.filter (fun v => !(v == .na)) = vs := by
  apply List.filter_eq_self.mpr
  intro v hv
  obtain ⟨a, rfl⟩ := h v hv
  simp

theorem pminList_spec {vs : List PVal} (hne : vs ≠ [])
    (h : ∀ v ∈ vs, ∃ a : ℚ, v = .num a) :
    ∃ m : ℚ, pminList vs = .num m ∧
      (∀ v ∈ vs, ∀ a : ℚ, v = .num a → m ≤ a) ∧ (PVal.num m) ∈ vs := by
  unfold pminList
  rw [filter_na_of_all_num h]
  cases vs with
  | nil => exact absurd rfl hne
  | cons x rest =>
      obtain ⟨a0, rfl⟩ := h x (List.mem_cons_self _ _)
      obtain ⟨m, hm, hle, hbound, hatt⟩ := pmin2_fold_spec rest a0
        (fun w hw => h w (List.mem_cons_of_mem _ hw))
      refine ⟨m, hm, ?_, ?_⟩
      · intro v hv b hb
        rcases List.mem_cons.mp hv with rfl | hv'
        · have hba : b = a0 := by
            injection hb with hh
            exact hh.symm
          exact hba ▸ hle
        · exact hbound v hv' b hb
      · rcases hatt with he | hmem
        · rw [he]
          exact List.mem_cons_self _ _
        · exact List.mem_cons_of_mem _ hmem

theorem pmaxList_spec {vs : List PVal} (hne : vs ≠ [])
    (h : ∀ v ∈ vs, ∃ a : ℚ, v = .num a) :
    ∃ m : ℚ, pmaxList vs = .num m ∧
      (∀ v ∈ vs, ∀ a : ℚ, v = .num a → a ≤ m) ∧ (PVal.num m) ∈ vs := by
  unfold pmaxList
  rw [filter_na_of_all_num h]
  cases vs with
  | nil => exact absurd rfl hne
  | cons x rest =>
      obtain ⟨a0, rfl⟩ := h x (List.mem_cons_self _ _)
      obtain ⟨m, hm, hle, hbound, hatt⟩ := pmax2_fold_spec rest a0
        (fun w hw => h w (List.mem_cons_of_mem _ hw))
      refine ⟨m, hm, ?_, ?_⟩
      · intro v hv b hb
        rcases List.mem_cons.mp hv with rfl | hv'
        · have hba : b = a0 := by
            injection hb with hh
            exact hh.symm
          exact hba ▸ hle
        · exact hbound v hv' b hb
      · rcases hatt with he | hmem
        · rw [he]
          exact List.mem_cons_self _ _
        · exact List.mem_cons_of_mem _ hmem

/-- C6 counterexample: min-max scaling a constant column divides by
zero, giving `NaN` — not a value in `[0, 1]`, and the row holding the
minimum does not map to `0`. -/
theorem minmax_counterexample :
    ((normalize_by_mim_max exConstTable ["c"]).rows.map
      (fun r => r "c")) = [PVal.na] ∧
    ¬(((normalize_by_mim_max exConstTable ["c"]).rows.map
      (fun r => r "c")) = [PVal.num 0]) := by
  have hv : rowOf [("c", PVal.num 5)] "c" = PVal.num 5 := by decide
  have hmin : pminList (colVals exConstTable "c") = PVal.num 5 := by decide
  have hmax : pmaxList (colVals exConstTable "c") = PVal.num 5 := by decide
  have hcell : minMaxRow exConstTable ["c"] (rowOf [("c", PVal.num 5)])
      "c" = PVal.na := by
    unfold minMaxRow
    rw [if_pos (by decide), hv, hmin, hmax]
    show pdiv (PVal.num (5 - 5)) (PVal.num (5 - 5)) = PVal.na
    norm_num [pdiv]
  constructor
  · show [minMaxRow exConstTable ["c"] (rowOf [("c", PVal.num 5)]) "c"]
      = [PVal.na]
    rw [hcell]
  · intro h
    have h2 : [minMaxRow exConstTable ["c"] (rowOf [("c", PVal.num 5)])
        "c"] = [PVal.num 0] := h
    rw [hcell] at h2
    exact absurd h2 (by decide)

/-- C6 amended: for an all-numeric, non-constant column, every min-max
scaled value is a number in `[0, 1]`, the rows holding the column
minimum map to `0` and those holding the maximum map to `1`; a constant
column instead yields `NaN` (division by zero) and missing entries stay
missing. -/
theorem minmax_normalization (t : Table) (cols : List String) (c : String)
    (hc : cols.contains c = true)
    (hnum : ∀ r ∈ t.rows, ∃ q : ℚ, r c = .num q)
    (hne : pminList (colVals t c) ≠ pmaxList (colVals t c)) :
    (∀ r' ∈ (normalize_by_mim_max t cols).rows,
      ∃ q : ℚ, r' c = .num q ∧ 0 ≤ q ∧ q ≤ 1) ∧
    (∀ r ∈ t.rows, r c = pminList (colVals t c) →
      minMaxRow t cols r c = .num 0) ∧
    (∀ r ∈ t.rows, r c = pmaxList (colVals t c) →
      minMaxRow t cols r c = .num 1) := by
  have hvals : ∀ v ∈ colVals t c, ∃ a : ℚ, v = .num a := by
    intro v hv
    obtain ⟨r, hr, rfl⟩ := List.mem_map.mp hv
    exact hnum r hr
  have main : ∀ r ∈ t.rows, ∃ m M a : ℚ,
      pminList (colVals t c) = .num m ∧
      pmaxList (colVals t c) = .num M ∧ r c = .num a ∧
      m ≤ a ∧ a ≤ M ∧ m < M ∧
      minMaxRow t cols r c = .num ((a - m) / (M - m)) := by
    intro r hr
    have hnonempty : colVals t c ≠ [] := by
      intro hempty
      have : r c ∈ colVals t c := List.mem_map_of_mem _ hr
      rw [hempty] at this
      exact List.not_mem_nil _ this
    obtain ⟨m, hm, hmb, hmmem⟩ := pminList_spec hnonempty hvals
    obtain ⟨M, hM, hMb, hMmem⟩ := pmaxList_spec hnonempty hvals
    obtain ⟨a, ha⟩ := hnum r hr
    have hma : m ≤ a := hmb (r c) (List.mem_map_of_mem _ hr) a ha
    have haM : a ≤ M := hMb (r c) (List.mem_map_of_mem _ hr) a ha
    have hmM : m ≤ M := by
      obtain ⟨am, ham⟩ := hvals _ hmmem
      have h1 : m = am := by injection ham with hh
      exact h1 ▸ hMb _ hmmem am ham
    have hlt : m < M := lt_of_le_of_ne hmM (by
      intro hmeq
      rw [hm, hM, hmeq] at hne
      exact hne rfl)
    refine ⟨m, M, a, hm, hM, ha, hma, haM, hlt, ?_⟩
    unfold minMaxRow
    rw [if_pos hc, hm, hM, ha]
    show pdiv (PVal.num (a - m)) (PVal.num (M - m)) = _
    simp only [pdiv]
    rw [if_neg (by
      intro h0
      exact (ne_of_lt hlt) (sub_eq_zero.mp h0).symm)]
  refine ⟨?_, ?_, ?_⟩
  · intro r' hr'
    obtain ⟨r, hr, rfl⟩ := List.mem_map.mp hr'
    obtain ⟨m, M, a, _, _, _, hma, haM, hlt, heq⟩ := main r hr
    refine ⟨(a - m) / (M - m), heq, ?_, ?_⟩
    · apply div_nonneg <;> linarith
    · rw [div_le_one (by linarith)]
      linarith
  · intro r hr hrmin
    obtain ⟨m, M, a, hm, _, ha, _, _, hlt, heq⟩ := main r hr
    have : a = m := by
      rw [hrmin, hm] at ha
      injection ha with hh
      exact hh.symm
    rw [heq, this]
    norm_num
  · intro r hr hrmax
    obtain ⟨m, M, a, _, hM, ha, _, _, hlt, heq⟩ := main r hr
    have : a = M := by
      rw [hrmax, hM] at ha
      injection ha with hh
      exact hh.symm
    rw [heq, this]
    rw [div_self (by linarith : M - m ≠ 0)]

/-- C6 witness: on the column with values 0 and 1, the minimum row maps
to 0 and the maximum row maps to 1. -/
theorem minmax_normalization_witness :
    minMaxRow exMinMaxTable ["c"] exMinRow "c" = PVal.num 0 ∧
    minMaxRow exMinMaxTable ["c"] exMaxRow "c" = PVal.num 1 := by
  have h := minmax_normalization exMinMaxTable ["c"] "c" (by decide)
    ?_ (by decide)
  · exact ⟨h.2.1 exMinRow (by simp [exMinMaxTable]) (by decide),
      h.2.2 exMaxRow (by simp [exMinMaxTable]) (by decide)⟩
  · intro r hr
    simp only [exMinMaxTable] at hr
    rcases List.mem_cons.mp hr with rfl | hr2
    · exact ⟨0, by decide⟩
    rcases List.mem_cons.mp hr2 with rfl | hr3
    · exact ⟨1, by decide⟩
    · exact absurd hr3 (List.not_mem_nil _)

theorem contains_true_iff {α : Type} [BEq α] [LawfulBEq α] (l : List α)
    (x : α) : l.contains x = true ↔ x ∈ l :=
  List.elem_iff

theorem contains_false_iff {α : Type} [BEq α] [LawfulBEq α] (l : List α)
    (x : α) : l.contains x = false ↔ x ∉ l := by
  rw [Bool.eq_false_iff]
  exact not_congr (contains_true_iff l x)

theorem mergeVal_left (a b : DF) (c : String) (hc : c ∈ a.cols)
    (k : Int) :
    mergeVal a b k c = if k ∈ a.keys then a.val k c else .na := by
  unfold mergeVal
  rw [(contains_true_iff a.cols c).mpr hc]
  by_cases hk : k ∈ a.keys
  · rw [(contains_true_iff a.keys k).mpr hk]
    simp [hk]
  · rw [(contains_false_iff a.keys k).mpr hk]
    simp [hk]

theorem mergeVal_right (a b : DF) (c : String) (hca : c ∉ a.cols)
    (hcb : c ∈ b.cols) (k : Int) :
    mergeVal a b k c = if k ∈ b.keys then b.val k c else .na := by
  unfold mergeVal
  rw [(contains_false_iff a.cols c).mpr hca,
    (contains_true_iff b.cols c).mpr hcb]
  by_cases hk : k ∈ b.keys
  · rw [(contains_true_iff b.keys k).mpr hk]
    simp [hk]
  · rw [(contains_false_iff b.keys k).mpr hk]
    simp [hk]

theorem mem_suffixCol_map (base bcols : List String) (c : String)
    (hcd : containsTag DELETE_TAG c = false) :
    c ∈ bcols.map (suffixCol base) ↔ c ∈ bcols ∧ c ∉ base := by
  constructor
  · intro h
    obtain ⟨c0, hc0, heq⟩ := List.mem_map.mp h
    unfold suffixCol at heq
    by_cases hb : base.contains c0 = true
    · rw [hb] at heq
      simp only [if_true] at heq
      rw [← heq] at hcd
      rw [containsTag_append_self c0 DELETE_TAG] at hcd
      exact absurd hcd (by decide)
    · rw [Bool.not_eq_true] at hb
      rw [hb] at heq
      simp only [Bool.false_eq_true, if_false] at heq
      subst heq
      exact ⟨hc0, (contains_false_iff base c0).mp hb⟩
  · rintro ⟨hcb, hcnb⟩
    refine List.mem_map.mpr ⟨c, hcb, ?_⟩
    unfold suffixCol
    rw [(contains_false_iff base c).mpr hcnb]
    simp

theorem mergeOuter_keys_mem (a b : DF) (k : Int) :
    k ∈ (mergeOuter a b).keys ↔ k ∈ a.keys ∨ k ∈ b.keys := by
  show k ∈ a.keys ++ b.keys.filter (fun k => !(a.keys.contains k)) ↔ _
  rw [List.mem_append, List.mem_filter]
  constructor
  · rintro (h | ⟨h, _⟩)
    · exact Or.inl h
    · exact Or.inr h
  · rintro (h | h)
    · exact Or.inl h
    · by_cases hka : k ∈ a.keys
      · exact Or.inl hka
      · refine Or.inr ⟨h, ?_⟩
        rw [(contains_false_iff a.keys k).mpr hka]
        rfl

theorem append_singleton_decomp {α : Type} :
    ∀ (pre : List α) (l : List α) (b d : α) (post : List α),
    l ++ [b] = pre ++ d :: post →
    (∃ post', l = pre ++ d :: post' ∧ post = post' ++ [b]) ∨
      (pre = l ∧ d = b ∧ post = []) := by
  intro pre
  induction pre with
  | nil =>
      intro l b d post h
      cases l with
      | nil =>
          simp only [List.nil_append] at h
          injection h with h1 h2
          exact Or.inr ⟨rfl, h1.symm, h2.symm⟩
      | cons x l' =>
          simp only [List.cons_append, List.nil_append] at h
          injection h with h1 h2
          exact Or.inl ⟨l', by simp [h1], h2.symm⟩
  | cons p pre' ih =>
      intro l b d post h
      cases l with
      | nil =>
          simp only [List.nil_append, List.cons_append] at h
          injection h with h1 h2
          exact absurd (List.append_eq_nil.mp h2.symm).2
            (List.cons_ne_nil _ _)
      | cons x l' =>
          simp only [List.cons_append] at h
          injection h with h1 h2
          rcases ih l' b d post h2 with ⟨post', hl, hp⟩ | ⟨hp, hd, hpost⟩
          · exact Or.inl ⟨post', by rw [h1, hl, List.cons_append], hp⟩
          · exact Or.inr ⟨by rw [h1, hp], hd, hpost⟩

theorem inv_single (d : DF) : MergeInv [d] d := by
  refine ⟨by simp, by simp, ?_⟩
  intro pre d' post hdec c hc _ _ k hk
  cases pre with
  | nil =>
      simp only [List.nil_append] at hdec
      injection hdec with h1 h2
      subst h1
      rw [if_pos hk]
  | cons p pre' =>
      simp only [List.cons_append] at hdec
      injection hdec with h1 h2
      exact absurd (List.append_eq_nil.mp h2.symm).2 (List.cons_ne_nil _ _)

theorem inv_step (done : List DF) (acc b : DF) (hinv : MergeInv done acc)
    (hwb : ∀ c ∈ b.cols, containsTag DELETE_TAG c = false) :
    MergeInv (done ++ [b]) (mergeOuter acc b) := by
  obtain ⟨IK, IC, IV⟩ := hinv
  refine ⟨?_, ?_, ?_⟩
  · intro k
    rw [mergeOuter_keys_mem, IK k]
    constructor
    · rintro (⟨df, hdf, hk⟩ | hk)
      · exact ⟨df, List.mem_append.mpr (Or.inl hdf), hk⟩
      · exact ⟨b, List.mem_append.mpr (Or.inr (List.mem_singleton.mpr rfl)),
          hk⟩
    · rintro ⟨df, hdf, hk⟩
      rcases List.mem_append.mp hdf with hdone | hbmem
      · exact Or.inl ⟨df, hdone, hk⟩
      · rw [List.mem_singleton.mp hbmem] at hk
        exact Or.inr hk
  · intro c hcd
    show c ∈ acc.cols ++ b.cols.map (suffixCol acc.cols) ↔ _
    rw [List.mem_append, mem_suffixCol_map acc.cols b.cols c hcd, IC c hcd,
      show (∃ df ∈ done ++ [b], c ∈ df.cols) ↔
        (∃ df ∈ done, c ∈ df.cols) ∨ c ∈ b.cols from by
          simp [List.mem_append, or_and_right, exists_or, exists_eq_left]]
    constructor
    · rintro (h | ⟨hb, _⟩)
      · exact Or.inl h
      · exact Or.inr hb
    · rintro (h | hb)
      · exact Or.inl h
      · by_cases he : ∃ df ∈ done, c ∈ df.cols
        · exact Or.inl he
        · exact Or.inr ⟨hb, he⟩
  · intro pre d post hdec c hc hpre hcd k hk
    rw [show (mergeOuter acc b).val = mergeVal acc b from rfl]
    rcases append_singleton_decomp pre done b d post hdec with
      ⟨post', hdone', hpost⟩ | ⟨hpre_eq, hdb, hpost⟩
    · have hddone : d ∈ done := by
        rw [hdone']
        exact List.mem_append.mpr (Or.inr (List.mem_cons_self _ _))
      have hacc : c ∈ acc.cols := (IC c hcd).mpr ⟨d, hddone, hc⟩
      rw [mergeVal_left acc b c hacc k]
      by_cases hka : k ∈ acc.keys
      · rw [if_pos hka]
        exact IV pre d post' hdone' c hc hpre hcd k hka
      · rw [if_neg hka, if_neg (fun hkd => hka ((IK k).mpr ⟨d, hddone, hkd⟩))]
    · subst hdb
      have hnacc : c ∉ acc.cols := by
        intro hmem
        obtain ⟨df, hdf, hcdf⟩ := (IC c hcd).mp hmem
        rw [hpre_eq] at hpre
        exact hpre df hdf hcdf
      rw [mergeVal_right acc d c hnacc hc k]

theorem inv_fold :
    ∀ (rest done : List DF) (acc : DF), MergeInv done acc →
    (∀ df ∈ rest, ∀ c ∈ df.cols, containsTag DELETE_TAG c = false) →
    MergeInv (done ++ rest) (rest.foldl mergeOuter acc) := by
  intro rest
  induction rest with
  | nil =>
      intro done acc hinv _
      rw [List.append_nil]
      exact hinv
  | cons r rest' ih =>
      intro done acc hinv hw
      have h1 := inv_step done acc r hinv (hw r (List.mem_cons_self _ _))
      have h2 := ih (done ++ [r]) (mergeOuter acc r) h1
        (fun df hdf => hw df (List.mem_cons_of_mem _ hdf))
      rw [List.append_assoc] at h2
      exact h2

/-- C1: merging an ordered sequence of interim frames sharing the key
column gives: key set = union of key sets, column set = union of column
sets, and a shared column resolves to the first frame (in order) that
defines it — that frame's value at its own keys, `NaN` at all other
keys (later frames' copies are suffixed with `[DELETE]` and dropped). -/
theorem merger_outer_join_first_wins (dfs : List DF)
    (hwf : ∀ df ∈ dfs, ∀ c ∈ df.cols,
      containsTag DELETE_TAG c = false) :
    (∀ k : Int, k ∈ (merge_data dfs).keys ↔ ∃ df ∈ dfs, k ∈ df.keys) ∧
    (∀ c : String, c ∈ (merge_data dfs).cols ↔ ∃ df ∈ dfs, c ∈ df.cols) ∧
    (∀ pre d post, dfs = pre ++ d :: post →
      ∀ c ∈ d.cols, (∀ df ∈ pre, c ∉ df.cols) →
      ∀ k ∈ (merge_data dfs).keys,
        (merge_data dfs).val k c =
          if k ∈ d.keys then d.val k c else .na) := by
  cases dfs with
  | nil =>
      refine ⟨by simp [merge_data, drop_duplicated_col_from_merge, emptyDF],
        by simp [merge_data, drop_duplicated_col_from_merge, emptyDF], ?_⟩
      intro pre d post hdec
      exact absurd (List.append_eq_nil.mp hdec.symm).2 (List.cons_ne_nil _ _)
  | cons d0 rest =>
      obtain ⟨IK, IC, IV⟩ := inv_fold rest [d0] d0 (inv_single d0)
        (fun df hdf => hwf df (List.mem_cons_of_mem _ hdf))
      refine ⟨IK, ?_, ?_⟩
      · intro c
        show c ∈ (rest.foldl mergeOuter d0).cols.filter
          (fun c => !containsTag DELETE_TAG c) ↔ _
        rw [List.mem_filter]
        constructor
        · rintro ⟨hmem, hnd⟩
          rw [Bool.not_eq_true'] at hnd
          exact (IC c hnd).mp hmem
        · rintro ⟨df, hdf, hcdf⟩
          have hcd := hwf df hdf c hcdf
          refine ⟨(IC c hcd).mpr ⟨df, hdf, hcdf⟩, ?_⟩
          rw [hcd]
          rfl
      · intro pre d post hdec c hc hpre k hk
        have hddfs : d ∈ d0 :: rest := by
          rw [hdec]
          exact List.mem_append.mpr (Or.inr (List.mem_cons_self _ _))
        exact IV pre d post hdec c hc hpre (hwf d hddfs c hc) k hk

/-- C1 witness: the spec scenario — `A` with keys `[1,2]`, `x=[10,20]`
and `B` with keys `[2,3]`, `x=[5,99]`, `y=[7,8]` merge to keys
`{1,2,3}` with `x` taken entirely from `A` (`NaN` at key 3, `B`'s `x`
discarded) and `y` from `B` (`NaN` at key 1). -/
theorem merger_outer_join_first_wins_witness :
    (3 ∈ (merge_data [dfA, dfB]).keys) ∧
    (merge_data [dfA, dfB]).val 2 "x" = PVal.num 20 ∧
    (merge_data [dfA, dfB]).val 3 "x" = PVal.na ∧
    (merge_data [dfA, dfB]).val 1 "y" = PVal.na ∧
    (merge_data [dfA, dfB]).val 2 "y" = PVal.num 7 := by
  have h := merger_outer_join_first_wins [dfA, dfB] (by decide)
  have hx := h.2.2 [] dfA [dfB] rfl "x" (by decide) (by simp)
  have hy := h.2.2 [dfA] dfB [] rfl "y" (by decide) ?hpre
  case hpre =>
    intro df hdf
    rw [List.mem_singleton.mp hdf]
    decide
  have hk2 : 2 ∈ (merge_data [dfA, dfB]).keys :=
    (h.1 2).mpr ⟨dfA, by simp, by decide⟩
  have hk3 : 3 ∈ (merge_data [dfA, dfB]).keys :=
    (h.1 3).mpr ⟨dfB, by simp, by decide⟩
  have hk1 : 1 ∈ (merge_data [dfA, dfB]).keys :=
    (h.1 1).mpr ⟨dfA, by simp, by decide⟩
  refine ⟨hk3, ?_, ?_, ?_, ?_⟩
  · rw [hx 2 hk2, if_pos (by decide)]
    decide
  · rw [hx 3 hk3, if_neg (by decide)]
  · rw [hy 1 hk1, if_neg (by decide)]
  · rw [hy 2 hk2, if_pos (by decide)]
    decide

theorem mem_groupKeys_exists {t : Table} {ks : List String}
    {g : List PVal} (hg : g ∈ groupKeys t ks) :
    ∃ r ∈ validRows t ks, keyTuple ks r = g := by
  rw [groupKeys, List.mem_dedup] at hg
  exact List.mem_map.mp hg

theorem groupRows_mem_iff {t : Table} {ks : List String} {g : List PVal}
    {r : String → PVal} :
    r ∈ groupRows t ks g ↔ r ∈ validRows t ks ∧ keyTuple ks r = g := by
  rw [groupRows, List.mem_filter, beq_iff_eq]

theorem validRow_ne_na {ks : List String} {r : String → PVal}
    (h : validRow ks r = true) : ∀ k ∈ ks, r k ≠ .na := by
  intro k hk
  rw [validRow, List.all_eq_true] at h
  have := h (r k) (List.mem_map_of_mem _ hk)
  simpa using this

theorem validRows_sub {t : Table} {ks : List String}
    {r : String → PVal} (h : r ∈ validRows t ks) :
    r ∈ t.rows ∧ validRow ks r = true :=
  List.mem_filter.mp h

theorem aggRow_keyTuple (t : Table) (ks : List String)
    (hfirst : ∀ k ∈ ks, aggHow t k = "first") (g : List PVal)
    (hg : g ∈ groupKeys t ks) :
    keyTuple ks (fun c => aggCell t ks g c) = g := by
  obtain ⟨r0, hr0v, hkey⟩ := mem_groupKeys_exists hg
  have hr0g : r0 ∈ groupRows t ks g := groupRows_mem_iff.mpr ⟨hr0v, hkey⟩
  have hmap : ks.map (fun k => aggCell t ks g k) = ks.map r0 := by
    apply List.map_congr_left
    intro k hk
    unfold aggCell aggValue
    rw [hfirst k hk, if_neg (by decide)]
    apply pfirst_const
    · intro hemp
      have hmem : r0 k ∈ (groupRows t ks g).map (fun r => r k) :=
        List.mem_map_of_mem _ hr0g
      rw [hemp] at hmem
      exact List.not_mem_nil _ hmem
    · intro v hv
      obtain ⟨r', hr', rfl⟩ := List.mem_map.mp hv
      have hkey' : keyTuple ks r' = g := (groupRows_mem_iff.mp hr').2
      exact map_eq_of_mem ks (hkey'.trans hkey.symm) k hk
    · exact validRow_ne_na (validRows_sub hr0v).2 k hk
  show ks.map (fun k => aggCell t ks g k) = g
  rw [hmap]
  exact hkey

theorem mergeOuter_keys_nodup {a b : DF} (ha : a.keys.Nodup)
    (hb : b.keys.Nodup) : (mergeOuter a b).keys.Nodup := by
  show (a.keys ++ b.keys.filter (fun k => !(a.keys.contains k))).Nodup
  refine List.Nodup.append ha (hb.filter _) ?_
  intro k hka hkf
  have := (List.mem_filter.mp hkf).2
  rw [Bool.not_eq_true'] at this
  exact (contains_false_iff a.keys k).mp this hka

theorem fold_keys_nodup :
    ∀ (rest : List DF) (acc : DF), acc.keys.Nodup →
    (∀ df ∈ rest, df.keys.Nodup) →
    (rest.foldl mergeOuter acc).keys.Nodup := by
  intro rest
  induction rest with
  | nil => intro acc h _; exact h
  | cons r rest' ih =>
      intro acc h hall
      exact ih (mergeOuter acc r)
        (mergeOuter_keys_nodup h (hall r (List.mem_cons_self _ _)))
        (fun df hdf => hall df (List.mem_cons_of_mem _ hdf))

/-- C4: aggregation produces one row per distinct geographic key — the
key tuples of the aggregated rows are pairwise distinct (the key columns
carry the `first` policy, as the pipeline's identifier and name key
columns do) — and the outer-join merge keeps keys unique whenever every
input frame has unique keys. -/
theorem aggregation_key_uniqueness :
    (∀ (t : Table) (ks : List String),
      (∀ k ∈ ks, aggHow t k = "first") →
      ((aggregate_data t ks).rows.map (keyTuple ks)).Nodup) ∧
    (∀ dfs : List DF, (∀ df ∈ dfs, df.keys.Nodup) →
      (merge_data dfs).keys.Nodup) := by
  constructor
  · intro t ks hfirst
    show ((groupKeys t ks).map (fun g => fun c => aggCell t ks g c)).map
      (keyTuple ks) |>.Nodup
    rw [List.map_map]
    have h2 : (groupKeys t ks).map
        (fun g => keyTuple ks (fun c => aggCell t ks g c)) =
        (groupKeys t ks).map (fun g => g) :=
      List.map_congr_left (fun g hg => aggRow_keyTuple t ks hfirst g hg)
    have h3 : keyTuple ks ∘ (fun g => fun c => aggCell t ks g c) =
        fun g => keyTuple ks (fun c => aggCell t ks g c) := rfl
    rw [h3, h2]
    simp only [List.map_id']
    exact List.nodup_dedup _
  · intro dfs hall
    cases dfs with
    | nil => simp [merge_data, drop_duplicated_col_from_merge, emptyDF]
    | cons d0 rest =>
        show (rest.foldl mergeOuter d0).keys.Nodup
        exact fold_keys_nodup rest d0 (hall d0 (List.mem_cons_self _ _))
          (fun df hdf => hall df (List.mem_cons_of_mem _ hdf))

/-- C4 witness: the three-row polling table aggregated by `[UF, CITY]`
has pairwise-distinct key tuples, and merging the two scenario frames
(each with unique keys) keeps keys unique. -/
theorem aggregation_key_uniqueness_witness :
    ((aggregate_data exAggTable [UF_COL, CITY_COL]).rows.map
      (keyTuple [UF_COL, CITY_COL])).Nodup ∧
    (merge_data [dfA, dfB]).keys.Nodup :=
  ⟨aggregation_key_uniqueness.1 exAggTable [UF_COL, CITY_COL] (by decide),
   aggregation_key_uniqueness.2 [dfA, dfB] (by decide)⟩

theorem keyTuple_append (ks1 ks2 : List String) (r : String → PVal) :
    keyTuple (ks1 ++ ks2) r = keyTuple ks1 r ++ keyTuple ks2 r :=
  List.map_append _ _ _

theorem keyTuple_take (ks1 ks2 : List String) (r : String → PVal) :
    (keyTuple (ks1 ++ ks2) r).take ks1.length = keyTuple ks1 r := by
  rw [keyTuple_append]
  have h : (keyTuple ks1 r).length = ks1.length := List.length_map _ _
  rw [← h]
  exact List.take_left _ _

theorem validRow_append_left {ks1 ks2 : List String} {r : String → PVal}
    (h : validRow (ks1 ++ ks2) r = true) : validRow ks1 r = true := by
  rw [validRow, keyTuple_append, List.all_append, Bool.and_eq_true] at h
  exact h.1

/-- C3 (amended): for a `sum`-policy column with finite-or-missing
values, over rows whose fine-level keys are all present, and with
`first`-policy key columns (as the pipeline's geographic keys are): the
coarse aggregated cell of a group equals the `NaN`-skipping sum of that
column over the fine-level aggregated rows whose key-prefix maps to the
coarse group, and that cell is the value of an actual coarse output row
whose key tuple is the group. -/
theorem aggregation_additivity (t : Table) (ks_c ext : List String)
    (c : String) (g : List PVal)
    (hfirst : ∀ k ∈ ks_c ++ ext, aggHow t k = "first")
    (hsum : aggHow t c = "sum")
    (hvalid : ∀ r ∈ t.rows, validRow (ks_c ++ ext) r = true)
    (hfin : ∀ r ∈ t.rows, finOrNa (r c) = true)
    (hg : g ∈ groupKeys t ks_c) :
    psum (((aggregate_data t (ks_c ++ ext)).rows.filter
        (fun r => keyTuple ks_c r == g)).map (fun r => r c)) =
      aggCell t ks_c g c ∧
    (fun c' => aggCell t ks_c g c') ∈ (aggregate_data t ks_c).rows ∧
    keyTuple ks_c (fun c' => aggCell t ks_c g c') = g := by
  have hvrf : validRows t (ks_c ++ ext) = t.rows :=
    List.filter_eq_self.mpr hvalid
  have hvrc : validRows t ks_c = t.rows :=
    List.filter_eq_self.mpr (fun r hr => validRow_append_left (hvalid r hr))
  have hrowmem : ∀ {g' : List PVal} {r : String → PVal},
      r ∈ groupRows t (ks_c ++ ext) g' → r ∈ t.rows := by
    intro g' r hr
    have := (groupRows_mem_iff.mp hr).1
    rw [hvrf] at this
    exact this
  have hcell : ∀ g', aggCell t (ks_c ++ ext) g' c =
      .num (((groupRows t (ks_c ++ ext) g').map
        (fun r => contrib (r c))).sum) := by
    intro g'
    unfold aggCell aggValue
    rw [hsum, if_pos rfl,
      psum_eq_contrib (by
        intro v hv
        obtain ⟨r, hrg, rfl⟩ := List.mem_map.mp hv
        exact hfin r (hrowmem hrg)), List.map_map]
    rfl
  have hcellc : aggCell t ks_c g c =
      .num (((groupRows t ks_c g).map (fun r => contrib (r c))).sum) := by
    unfold aggCell aggValue
    rw [hsum, if_pos rfl,
      psum_eq_contrib (by
        intro v hv
        obtain ⟨r, hrg, rfl⟩ := List.mem_map.mp hv
        have := (groupRows_mem_iff.mp hrg).1
        rw [hvrc] at this
        exact hfin r this), List.map_map]
    rfl
  refine ⟨?_, List.mem_map_of_mem _ hg,
    aggRow_keyTuple t ks_c
      (fun k hk => hfirst k (List.mem_append.mpr (Or.inl hk))) g hg⟩
  show psum ((((groupKeys t (ks_c ++ ext)).map
      (fun g' => fun c' => aggCell t (ks_c ++ ext) g' c')).filter
      (fun r => keyTuple ks_c r == g)).map (fun r => r c)) = _
  rw [List.filter_map, List.map_map]
  have hkeyagg : ∀ g' ∈ groupKeys t (ks_c ++ ext),
      keyTuple ks_c (fun c' => aggCell t (ks_c ++ ext) g' c') =
        g'.take ks_c.length := by
    intro g' hg'
    rw [← keyTuple_take ks_c ext (fun c' => aggCell t (ks_c ++ ext) g' c'),
      aggRow_keyTuple t (ks_c ++ ext) hfirst g' hg']
  have hfcongr : (groupKeys t (ks_c ++ ext)).filter
      ((fun r => keyTuple ks_c r == g) ∘
        (fun g' => fun c' => aggCell t (ks_c ++ ext) g' c')) =
      (groupKeys t (ks_c ++ ext)).filter
        (fun g' => g'.take ks_c.length == g) := by
    apply List.filter_congr
    intro g' hg'
    show (keyTuple ks_c (fun c' => aggCell t (ks_c ++ ext) g' c') == g) = _
    rw [hkeyagg g' hg']
  rw [hfcongr]
  set L' := (groupKeys t (ks_c ++ ext)).filter
    (fun g' => g'.take ks_c.length == g) with hL'
  have hmapcell : L'.map ((fun r => r c) ∘
      (fun g' => fun c' => aggCell t (ks_c ++ ext) g' c')) =
      L'.map (fun g' => PVal.num (((groupRows t (ks_c ++ ext) g').map
        (fun r => contrib (r c))).sum)) := by
    apply List.map_congr_left
    intro g' _
    exact hcell g'
  rw [hmapcell,
    psum_eq_contrib (by
      intro v hv
      obtain ⟨g', _, rfl⟩ := List.mem_map.mp hv
      rfl), List.map_map, hcellc]
  congr 1
  show (L'.map (fun g' => ((groupRows t (ks_c ++ ext) g').map
    (fun r => contrib (r c))).sum)).sum = _
  have hgr : ∀ g', groupRows t (ks_c ++ ext) g' =
      t.rows.filter (fun r => decide (keyTuple (ks_c ++ ext) r = g')) := by
    intro g'
    rw [groupRows, hvrf]
    apply List.filter_congr
    intro r _
    exact beq_eq_decide _ _
  have hmap2 : L'.map (fun g' => ((groupRows t (ks_c ++ ext) g').map
      (fun r => contrib (r c))).sum) =
      L'.map (fun g' => ((t.rows.filter
        (fun r => decide (keyTuple (ks_c ++ ext) r = g'))).map
        (fun r => contrib (r c))).sum) := by
    apply List.map_congr_left
    intro g' _
    rw [hgr g']
  rw [hmap2, sum_partition (fun r => keyTuple (ks_c ++ ext) r)
    (fun r => contrib (r c)) t.rows L'
    ((List.nodup_dedup _).filter _), groupRows, hvrc]
  refine congrArg List.sum (congrArg (List.map _) (List.filter_congr ?_))
  intro r hr
  rw [Bool.eq_iff_iff, List.any_eq_true, beq_iff_eq]
  constructor
  · rintro ⟨b, hbL, hbeq⟩
    have hbeq' : keyTuple (ks_c ++ ext) r = b := of_decide_eq_true hbeq
    have h2 := (List.mem_filter.mp hbL).2
    rw [beq_iff_eq] at h2
    rw [← keyTuple_take ks_c ext r, hbeq', h2]
  · intro heq
    refine ⟨keyTuple (ks_c ++ ext) r, ?_, decide_eq_true rfl⟩
    rw [hL', List.mem_filter]
    constructor
    · rw [groupKeys, List.mem_dedup, hvrf]
      exact List.mem_map_of_mem _ hr
    · rw [beq_iff_eq, keyTuple_take, heq]

/-- C3 counterexample: a row whose fine-level key (`ZONE`) is missing is
summed into the city-level total (5) but is dropped by the finer groupby
(pandas discards `NaN` group keys), so no fine-level row maps to the
city and the sum over the finer rows is 0 ≠ 5 — additivity fails as
universally stated. -/
theorem aggregation_additivity_counterexample :
    psum (((aggregate_data exNaKeyTable
        ([UF_COL, CITY_COL] ++ [ZONE_COL])).rows.filter
      (fun r => keyTuple [UF_COL, CITY_COL] r ==
        [PVal.str "A", PVal.str "c1"])).map (fun r => r VOTES_COL)) =
      PVal.num 0 ∧
    aggCell exNaKeyTable [UF_COL, CITY_COL] [PVal.str "A", PVal.str "c1"]
      VOTES_COL = PVal.num 5 ∧
    PVal.num 0 ≠ PVal.num 5 := by
  refine ⟨by decide, ?_, by decide⟩
  have hrows : (groupRows exNaKeyTable [UF_COL, CITY_COL]
      [PVal.str "A", PVal.str "c1"]).map (fun r => r VOTES_COL) =
      [PVal.num 5] := by decide
  unfold aggCell aggValue
  rw [show aggHow exNaKeyTable VOTES_COL = "sum" from by decide,
    if_pos rfl, hrows]
  show (List.filter _ [PVal.num 5]).foldl padd (PVal.num 0) = PVal.num 5
  rw [show List.filter (fun v => !(v == PVal.na)) [PVal.num 5] =
    [PVal.num 5] from by decide]
  show padd (PVal.num 0) (PVal.num 5) = PVal.num 5
  show PVal.num (0 + 5) = PVal.num 5
  norm_num

/-- C3 witness: on the three-row polling table, the city total of the
votes column equals the sum of the polling-zone aggregated rows mapping
to the city, obtained from the amended theorem at the concrete input. -/
theorem aggregation_additivity_witness :
    psum (((aggregate_data exAggTable
        ([UF_COL, CITY_COL] ++ [ZONE_COL])).rows.filter
      (fun r => keyTuple [UF_COL, CITY_COL] r ==
        [PVal.str "A", PVal.str "c1"])).map (fun r => r VOTES_COL)) =
      aggCell exAggTable [UF_COL, CITY_COL]
        [PVal.str "A", PVal.str "c1"] VOTES_COL :=
  (aggregation_additivity exAggTable [UF_COL, CITY_COL] [ZONE_COL]
    VOTES_COL [PVal.str "A", PVal.str "c1"] (by decide) (by decide)
    (by decide) (by decide) (by decide)).1

theorem firstValidAttempt_none_iff
    (parse : String → String → Option ParsedTable)
    (keyCols : List String) (fixTypo : String → String) :
    ∀ ps : List (String × String),
    firstValidAttempt parse keyCols fixTypo ps = none ↔
      ∀ p ∈ ps, attemptOk parse keyCols fixTypo p = false := by
  intro ps
  induction ps with
  | nil => simp [firstValidAttempt]
  | cons p rest ih =>
      by_cases hp : attemptOk parse keyCols fixTypo p = true
      · simp [firstValidAttempt, hp]
      · rw [Bool.not_eq_true] at hp
        simp only [firstValidAttempt, hp]
        simp only [Bool.false_eq_true, if_false, ih]
        constructor
        · intro h q hq
          rcases List.mem_cons.mp hq with rfl | hq'
          · exact hp
          · exact h q hq'
        · intro h q hq
          exact h q (List.mem_cons_of_mem _ hq)

theorem firstValidAttempt_some
    (parse : String → String → Option ParsedTable)
    (keyCols : List String) (fixTypo : String → String) :
    ∀ (ps : List (String × String)) (p : String × String),
    firstValidAttempt parse keyCols fixTypo ps = some p →
    attemptOk parse keyCols fixTypo p = true ∧
      ∃ pre suf, ps = pre ++ p :: suf ∧
        ∀ q ∈ pre, attemptOk parse keyCols fixTypo q = false := by
  intro ps
  induction ps with
  | nil => intro p h; exact absurd h (by simp [firstValidAttempt])
  | cons x rest ih =>
      intro p h
      by_cases hx : attemptOk parse keyCols fixTypo x = true
      · rw [firstValidAttempt, if_pos hx] at h
        injection h with h1
        subst h1
        exact ⟨hx, [], rest, rfl, by simp⟩
      · rw [Bool.not_eq_true] at hx
        rw [firstValidAttempt, hx] at h
        simp only [Bool.false_eq_true, if_false] at h
        obtain ⟨hok, pre, suf, hdec, hpre⟩ := ih p h
        refine ⟨hok, x :: pre, suf, by rw [hdec, List.cons_append], ?_⟩
        intro q hq
        rcases List.mem_cons.mp hq with rfl | hq'
        · exact hx
        · exact hpre q hq'

theorem attemptOk_elim {parse : String → String → Option ParsedTable}
    {keyCols : List String} {fixTypo : String → String}
    {p : String × String}
    (h : attemptOk parse keyCols fixTypo p = true) :
    ∃ tb, parse p.1 p.2 = some tb ∧
      validTable keyCols fixTypo tb = true := by
  rw [attemptOk] at h
  cases hp : parse p.1 p.2 with
  | none => rw [hp] at h; exact absurd h (by simp)
  | some tb => rw [hp] at h; exact ⟨tb, rfl, h⟩

/-- C7: the Resilient Reader tries the Cartesian product of encodings and
delimiters in priority order, succeeds exactly on the first pair whose
parse validates (returning that parse), and fails with
`UnreadableSourceError` exactly when no pair validates — it never
silently skips the file. -/
theorem resilient_reader (parse : String → String → Option ParsedTable)
    (keyCols : List String) (fixTypo : String → String)
    (encodings delimiters : List String) :
    (read_with_fallback parse keyCols fixTypo encodings delimiters =
        .error "UnreadableSourceError" ↔
      ∀ p ∈ attemptPairs encodings delimiters,
        attemptOk parse keyCols fixTypo p = false) ∧
    (∀ (tb : ParsedTable) (e d : String),
      read_with_fallback parse keyCols fixTypo encodings delimiters =
        .ok (tb, e, d) →
      (e, d) ∈ attemptPairs encodings delimiters ∧
      parse e d = some tb ∧
      validTable keyCols fixTypo tb = true ∧
      ∃ pre suf, attemptPairs encodings delimiters =
        pre ++ (e, d) :: suf ∧
        ∀ q ∈ pre, attemptOk parse keyCols fixTypo q = false) := by
  cases hfv : firstValidAttempt parse keyCols fixTypo
      (attemptPairs encodings delimiters) with
  | none =>
      constructor
      · rw [read_with_fallback, hfv]
        constructor
        · intro _
          exact (firstValidAttempt_none_iff parse keyCols fixTypo _).mp hfv
        · intro _
          rfl
      · intro tb e d h
        rw [read_with_fallback, hfv] at h
        exact absurd h (by simp)
  | some p =>
      obtain ⟨hok, pre, suf, hdec, hpre⟩ :=
        firstValidAttempt_some parse keyCols fixTypo _ p hfv
      obtain ⟨tb0, hparse, hvalid⟩ := attemptOk_elim hok
      have hpmem : p ∈ attemptPairs encodings delimiters := by
        rw [hdec]
        exact List.mem_append.mpr (Or.inr (List.mem_cons_self _ _))
      have hred : read_with_fallback parse keyCols fixTypo encodings
          delimiters = Except.ok (tb0, p.1, p.2) := by
        rw [read_with_fallback, hfv]
        show (match parse p.1 p.2 with
          | some tb => Except.ok (tb, p.1, p.2)
          | none => Except.error "UnreadableSourceError") =
          Except.ok (tb0, p.1, p.2)
        rw [hparse]
      constructor
      · rw [hred]
        constructor
        · intro h
          exact absurd h (by simp)
        · intro h
          have hp := h p hpmem
          rw [hok] at hp
          exact absurd hp (by simp)
      · intro tb e d h
        rw [hred] at h
        injection h with h1
        injection h1 with htb h2
        injection h2 with he hd
        subst htb
        subst he
        subst hd
        exact ⟨hpmem, hparse, hvalid, pre, suf, hdec, hpre⟩

/-- C7 witness: under the concrete parse oracle, the pair
`("latin1", ";")` is tried, parses to the two-column table and
validates (after the typo fix); under the always-misparsing oracle, the
reader fails with `UnreadableSourceError`. -/
theorem resilient_reader_witness :
    (("latin1", ";") ∈ attemptPairs ["latin1", "utf-8"] [";", ","] ∧
      exParse "latin1" ";" =
        some ⟨["SG_ UF", "QT_VOTOS"], [["SP", "10"]]⟩ ∧
      validTable ["SG_UF"] exFixTypo
        ⟨["SG_ UF", "QT_VOTOS"], [["SP", "10"]]⟩ = true) ∧
    read_with_fallback exParseBad ["SG_UF"] exFixTypo
      ["latin1", "utf-8"] [";", ","] = .error "UnreadableSourceError" := by
  constructor
  · have h := (resilient_reader exParse ["SG_UF"] exFixTypo
      ["latin1", "utf-8"] [";", ","]).2
      ⟨["SG_ UF", "QT_VOTOS"], [["SP", "10"]]⟩ "latin1" ";" (by rfl)
    exact ⟨h.1, h.2.1, h.2.2.1⟩
  · exact (resilient_reader exParseBad ["SG_UF"] exFixTypo
      ["latin1", "utf-8"] [";", ","]).1.mpr (by decide)

end Census
